import Mathlib

/-!
# A verification of `fourth.rs`: a doubly-linked deque over `Rc<RefCell<Node>>`

We shallowly embed the Rust implementation in `src/src/fourth.rs`.
Heap allocation is made explicit: `Rc<RefCell<Node<T>>>` pointers become
natural-number addresses into an association-list heap, and every strong
`Rc` reference in the program lives in exactly one of the modelled slots
(`head`, `tail`, or a node's `next`/`prev` field), so the strong count of
an `Rc` at any program point is one (for a local variable holding it)
plus the number of slots containing its address.  `Rc::try_unwrap` at the
end of `pop_front`/`pop_back` therefore succeeds exactly when no slot
holds the popped address, which is how the pops are modelled below.
A fatal outcome (failed `unwrap`, or following a dangling address, which
`Rc` semantics makes impossible and our reachability theorems prove
unreachable) is modelled as `none`.
-/

set_option autoImplicit false

namespace Fourth

/-- Heap addresses standing for `Rc<RefCell<Node<T>>>` pointers. -/
abbrev Addr := Nat

/-- Embeds `struct Node<T> { elem: T, next: Link<T>, prev: Link<T> }`,
with `Link<T> = Option<Rc<RefCell<Node<T>>>>` as `Option Addr`. -/
structure Node (α : Type) where
  elem : α
  next : Option Addr
  prev : Option Addr
deriving DecidableEq, Repr

/-- Lookup in an association-list heap (first entry with the given key). -/
def lookupA {α : Type} : List (Addr × Node α) → Addr → Option (Node α)
  | [], _ => none
  | p :: ps, a => if p.1 = a then some p.2 else lookupA ps a

/-- In-place update of every entry with the given key, as
`borrow_mut()` followed by a field write does on the unique cell. -/
def modifyA {α : Type} : List (Addr × Node α) → Addr → (Node α → Node α) → List (Addr × Node α)
  | [], _, _ => []
  | p :: ps, a, f => if p.1 = a then (p.1, f p.2) :: modifyA ps a f else p :: modifyA ps a f

/-- Removal of the entry with the given key: deallocation of the node
once its last `Rc` is unwrapped. -/
def removeA {α : Type} : List (Addr × Node α) → Addr → List (Addr × Node α)
  | [], _ => []
  | p :: ps, a => if p.1 = a then removeA ps a else p :: removeA ps a

/-- Number of `next`/`prev` slots among the heap entries that hold the
given address: the node-field contribution to an `Rc` strong count. -/
def refsA {α : Type} : List (Addr × Node α) → Addr → Nat
  | [], _ => 0
  | p :: ps, a =>
      (if p.2.next = some a then 1 else 0) + (if p.2.prev = some a then 1 else 0) + refsA ps a

/-- The heap: all currently live nodes, plus a fresh-address counter. -/
structure Heap (α : Type) where
  mem : List (Addr × Node α)
  fresh : Addr
deriving DecidableEq, Repr

def Heap.get {α : Type} (h : Heap α) (a : Addr) : Option (Node α) :=
  lookupA h.mem a

def Heap.modifyNode {α : Type} (h : Heap α) (a : Addr) (f : Node α → Node α) : Heap α :=
  ⟨modifyA h.mem a f, h.fresh⟩

def Heap.free {α : Type} (h : Heap α) (a : Addr) : Heap α :=
  ⟨removeA h.mem a, h.fresh⟩

/-- Allocation, as `Node::new`: a fresh cell with no links. -/
def Heap.alloc {α : Type} (h : Heap α) (x : α) : Addr × Heap α :=
  (h.fresh, ⟨(h.fresh, ⟨x, none, none⟩) :: h.mem, h.fresh + 1⟩)

/-- Embeds `struct List<T> { head: Link<T>, tail: Link<T> }`. -/
structure DLList (α : Type) where
  head : Option Addr
  tail : Option Addr
deriving DecidableEq, Repr

/-- A program state: the `List` struct together with the heap that the
`Rc` pointers reach into. -/
structure St (α : Type) where
  list : DLList α
  heap : Heap α
deriving DecidableEq, Repr

/-- `List::new()`. -/
def stNew {α : Type} : St α :=
  ⟨⟨none, none⟩, ⟨[], 0⟩⟩

/-- Strong-count contribution of all modelled slots to the address `a`:
the `head` slot, the `tail` slot, and every node's `next`/`prev`.
At the `Rc::try_unwrap` point of a pop the popped `Rc`'s strong count is
`1 + refCount`, so `try_unwrap` succeeds iff `refCount … = 0`. -/
def refCount {α : Type} (l : DLList α) (h : Heap α) (a : Addr) : Nat :=
  (if l.head = some a then 1 else 0) + (if l.tail = some a then 1 else 0) + refsA h.mem a

/-- `List::push_front`. -/
def pushFront {α : Type} (s : St α) (elem : α) : St α :=
  let (a, heap0) := s.heap.alloc elem
  match s.list.head with
  | some oldHead =>
      let heap1 := heap0.modifyNode oldHead (fun n => { n with prev := some a })
      let heap2 := heap1.modifyNode a (fun n => { n with next := some oldHead })
      ⟨⟨some a, s.list.tail⟩, heap2⟩
  | none =>
      ⟨⟨some a, some a⟩, heap0⟩

/-- `List::push_back`. -/
def pushBack {α : Type} (s : St α) (elem : α) : St α :=
  let (a, heap0) := s.heap.alloc elem
  match s.list.tail with
  | some oldTail =>
      let heap1 := heap0.modifyNode oldTail (fun n => { n with next := some a })
      let heap2 := heap1.modifyNode a (fun n => { n with prev := some oldTail })
      ⟨⟨s.list.head, some a⟩, heap2⟩
  | none =>
      ⟨⟨some a, some a⟩, heap0⟩

/-- `List::pop_front`.  `none` is a fatal outcome: a dangling address or
a failed `Rc::try_unwrap(old_head).ok().unwrap()`; `some (none, s)` is
the ordinary empty-list outcome. -/
def popFront {α : Type} (s : St α) : Option (Option α × St α) :=
  match s.list.head with
  | none => some (none, s)
  | some oldHead =>
    match s.heap.get oldHead with
    | none => none
    | some node =>
      let heap1 := s.heap.modifyNode oldHead (fun n => { n with next := none })
      let (list1, heap2) : DLList α × Heap α :=
        match node.next with
        | some newHead =>
            (⟨some newHead, s.list.tail⟩,
             heap1.modifyNode newHead (fun n => { n with prev := none }))
        | none => (⟨none, none⟩, heap1)
      if refCount list1 heap2 oldHead = 0 then
        some (some node.elem, ⟨list1, heap2.free oldHead⟩)
      else none

/-- `List::pop_back`, the mirror of `pop_front`. -/
def popBack {α : Type} (s : St α) : Option (Option α × St α) :=
  match s.list.tail with
  | none => some (none, s)
  | some oldTail =>
    match s.heap.get oldTail with
    | none => none
    | some node =>
      let heap1 := s.heap.modifyNode oldTail (fun n => { n with prev := none })
      let (list1, heap2) : DLList α × Heap α :=
        match node.prev with
        | some newTail =>
            (⟨s.list.head, some newTail⟩,
             heap1.modifyNode newTail (fun n => { n with next := none }))
        | none => (⟨none, none⟩, heap1)
      if refCount list1 heap2 oldTail = 0 then
        some (some node.elem, ⟨list1, heap2.free oldTail⟩)
      else none

/-- `List::peek_front`: the value readable through the returned `Ref`. -/
def peekFront {α : Type} (s : St α) : Option α :=
  s.list.head.bind fun a => (s.heap.get a).map (·.elem)

/-- `List::peek_back`. -/
def peekBack {α : Type} (s : St α) : Option α :=
  s.list.tail.bind fun a => (s.heap.get a).map (·.elem)

/-- Writing `v` through the `RefMut` returned by `peek_front_mut`:
`none` when the list is empty (no `RefMut` is returned to write through). -/
def peekFrontMutWrite {α : Type} (s : St α) (v : α) : Option (St α) :=
  s.list.head.map fun a =>
    ⟨s.list, s.heap.modifyNode a (fun n => { n with elem := v })⟩

/-- Writing `v` through the `RefMut` returned by `peek_back_mut`. -/
def peekBackMutWrite {α : Type} (s : St α) (v : α) : Option (St α) :=
  s.list.tail.map fun a =>
    ⟨s.list, s.heap.modifyNode a (fun n => { n with elem := v })⟩

/-! ## Association-list heap lemmas -/

theorem lookupA_modifyA_sameKey {α : Type} (ps : List (Addr × Node α)) (a : Addr)
    (f : Node α → Node α) : lookupA (modifyA ps a f) a = (lookupA ps a).map f := by
  induction ps with
  | nil => rfl
  | cons p ps ih =>
    by_cases h : p.1 = a
    · simp [lookupA, modifyA, h]
    · simp [lookupA, modifyA, h, ih]

theorem lookupA_modifyA_ne {α : Type} {ps : List (Addr × Node α)} {a b : Addr}
    (hne : b ≠ a) (f : Node α → Node α) : lookupA (modifyA ps a f) b = lookupA ps b := by
  have hne' : a ≠ b := Ne.symm hne
  induction ps with
  | nil => rfl
  | cons p ps ih =>
    by_cases h : p.1 = a
    · simp [lookupA, modifyA, h, hne', ih]
    · by_cases h2 : p.1 = b <;> simp [lookupA, modifyA, h, h2, hne, ih]

theorem keys_modifyA {α : Type} (ps : List (Addr × Node α)) (a : Addr)
    (f : Node α → Node α) : (modifyA ps a f).map Prod.fst = ps.map Prod.fst := by
  induction ps with
  | nil => rfl
  | cons p ps ih =>
    by_cases h : p.1 = a <;> simp [modifyA, h, ih]

theorem lookupA_removeA_self {α : Type} (ps : List (Addr × Node α)) (a : Addr) :
    lookupA (removeA ps a) a = none := by
  induction ps with
  | nil => rfl
  | cons p ps ih =>
    by_cases h : p.1 = a <;> simp [removeA, lookupA, h, ih]

theorem lookupA_removeA_ne {α : Type} {ps : List (Addr × Node α)} {a b : Addr}
    (hne : b ≠ a) : lookupA (removeA ps a) b = lookupA ps b := by
  have hne' : a ≠ b := Ne.symm hne
  induction ps with
  | nil => rfl
  | cons p ps ih =>
    by_cases h : p.1 = a
    · simp [removeA, lookupA, h, hne', ih]
    · by_cases h2 : p.1 = b <;> simp [removeA, lookupA, h, h2, hne, ih]

theorem keys_removeA_sublist {α : Type} (ps : List (Addr × Node α)) (a : Addr) :
    ((removeA ps a).map Prod.fst).Sublist (ps.map Prod.fst) := by
  induction ps with
  | nil => simp [removeA]
  | cons p ps ih =>
    by_cases h : p.1 = a
    · simpa [removeA, h] using ih.trans (List.sublist_cons_self _ _)
    · simpa [removeA, h] using ih.cons₂ p.1

theorem lookupA_isSome_iff {α : Type} (ps : List (Addr × Node α)) (a : Addr) :
    (lookupA ps a).isSome ↔ a ∈ ps.map Prod.fst := by
  induction ps with
  | nil => simp [lookupA]
  | cons p ps ih =>
    by_cases h : p.1 = a
    · simp [lookupA, h]
    · simp only [lookupA, h, if_false, List.map_cons, List.mem_cons, ih]
      constructor
      · exact Or.inr
      · rintro (he | hm)
        · exact absurd he.symm h
        · exact hm

theorem lookupA_of_mem_nodup {α : Type} {ps : List (Addr × Node α)}
    (hk : (ps.map Prod.fst).Nodup) {p : Addr × Node α} (hp : p ∈ ps) :
    lookupA ps p.1 = some p.2 := by
  induction ps with
  | nil => cases hp
  | cons q ps ih =>
    rcases List.mem_cons.mp hp with h | h
    · subst h; simp [lookupA]
    · have hne : ¬ (q.1 = p.1) := by
        intro he
        have : p.1 ∈ ps.map Prod.fst := List.mem_map_of_mem Prod.fst h
        rw [← he] at this
        exact (List.nodup_cons.mp hk).1 this
      simp [lookupA, hne]
      exact ih (List.nodup_cons.mp hk).2 h

theorem refsA_eq_zero {α : Type} {ps : List (Addr × Node α)} {x : Addr}
    (h : ∀ p ∈ ps, p.2.next ≠ some x ∧ p.2.prev ≠ some x) : refsA ps x = 0 := by
  induction ps with
  | nil => rfl
  | cons p ps ih =>
    have hp := h p (List.mem_cons_self p ps)
    simp [refsA, hp.1, hp.2]
    exact ih fun q hq => h q (List.mem_cons_of_mem p hq)

/-! ## The structural invariant

A list state is abstracted by a chain `cs : List (Addr × α)`: the
addresses of its nodes from front to back, paired with their elements.
-/

/-- The addresses of a chain. -/
def chainKeys {α : Type} (cs : List (Addr × α)) : List Addr := cs.map Prod.fst

/-- The address at position `i` of a chain, if any. -/
def keyAt {α : Type} (cs : List (Addr × α)) (i : Nat) : Option Addr :=
  (cs[i]?).map Prod.fst

/-- The address preceding position `i` of a chain, if any. -/
def prevKey {α : Type} (cs : List (Addr × α)) : Nat → Option Addr
  | 0 => none
  | i + 1 => keyAt cs i

/-- The full structural invariant tying a state to its abstract chain:
`head`/`tail` are the first/last chain address, the heap holds exactly
the chain's nodes, the heap keys are distinct, and the node stored at
the `i`-th address holds the `i`-th element with `next`/`prev` pointing
at the chain neighbours (so the first node's `prev` and the last node's
`next` are empty, and adjacent links pair up symmetrically). -/
structure Inv {α : Type} (s : St α) (cs : List (Addr × α)) : Prop where
  nodup : (chainKeys cs).Nodup
  headOk : s.list.head = keyAt cs 0
  tailOk : s.list.tail = (cs.getLast?).map Prod.fst
  dom : ∀ a : Addr, (s.heap.get a).isSome ↔ a ∈ chainKeys cs
  heapKeys : (s.heap.mem.map Prod.fst).Nodup
  nodes : ∀ i p, cs[i]? = some p →
      s.heap.get p.1 = some ⟨p.2, keyAt cs (i + 1), prevKey cs i⟩
  freshB : ∀ a ∈ chainKeys cs, a < s.heap.fresh

/-- A state faithfully represents an abstract element sequence. -/
def ListOk {α : Type} (s : St α) (l : List α) : Prop :=
  ∃ cs, Inv s cs ∧ cs.map Prod.snd = l

theorem keyAt_cons_succ {α : Type} (p : Addr × α) (cs : List (Addr × α)) (i : Nat) :
    keyAt (p :: cs) (i + 1) = keyAt cs i := by
  simp [keyAt]

theorem keyAt_cons_zero {α : Type} (p : Addr × α) (cs : List (Addr × α)) :
    keyAt (p :: cs) 0 = some p.1 := by
  simp [keyAt]

theorem keyAt_append_lt {α : Type} {cs : List (Addr × α)} {i : Nat}
    (h : i < cs.length) (ds : List (Addr × α)) : keyAt (cs ++ ds) i = keyAt cs i := by
  simp [keyAt, List.getElem?_append_left h]

theorem keyAt_concat_length {α : Type} (cs : List (Addr × α)) (p : Addr × α) :
    keyAt (cs ++ [p]) cs.length = some p.1 := by
  simp [keyAt, List.getElem?_concat_length]

theorem keyAt_eq_getElem? {α : Type} (cs : List (Addr × α)) (i : Nat) :
    keyAt cs i = (chainKeys cs)[i]? := by
  simp [keyAt, chainKeys]

theorem keyAt_lt_length {α : Type} {cs : List (Addr × α)} {i : Nat} {a : Addr}
    (h : keyAt cs i = some a) : i < cs.length := by
  by_contra hc
  rw [keyAt, List.getElem?_eq_none (Nat.le_of_not_lt hc)] at h
  cases h

/-- Positions in a duplicate-free chain are determined by their address. -/
theorem keyAt_inj {α : Type} {cs : List (Addr × α)} (hn : (chainKeys cs).Nodup)
    {i j : Nat} {a : Addr} (hi : keyAt cs i = some a) (hj : keyAt cs j = some a) : i = j := by
  have hi' : (chainKeys cs)[i]? = some a := by rw [← keyAt_eq_getElem?]; exact hi
  have hj' : (chainKeys cs)[j]? = some a := by rw [← keyAt_eq_getElem?]; exact hj
  have hlen : i < (chainKeys cs).length := by
    simpa [chainKeys] using keyAt_lt_length hi
  exact List.getElem?_inj hlen hn (hi'.trans hj'.symm)

theorem mem_chainKeys_iff_keyAt {α : Type} {cs : List (Addr × α)} {a : Addr} :
    a ∈ chainKeys cs ↔ ∃ i, keyAt cs i = some a := by
  rw [List.mem_iff_getElem?]
  constructor
  · rintro ⟨i, hi⟩; exact ⟨i, by rw [keyAt_eq_getElem?]; exact hi⟩
  · rintro ⟨i, hi⟩; exact ⟨i, by rw [← keyAt_eq_getElem?]; exact hi⟩

theorem keyAt_mem_chainKeys {α : Type} {cs : List (Addr × α)} {i : Nat} {a : Addr}
    (h : keyAt cs i = some a) : a ∈ chainKeys cs :=
  mem_chainKeys_iff_keyAt.mpr ⟨i, h⟩

/-! ## Heap access lemmas lifted to `Heap` -/

theorem Heap.get_modifyNode_self {α : Type} {h : Heap α} {a : Addr} {n : Node α}
    (hget : h.get a = some n) (f : Node α → Node α) :
    (h.modifyNode a f).get a = some (f n) := by
  show lookupA (modifyA h.mem a f) a = _
  rw [lookupA_modifyA_sameKey, show lookupA h.mem a = some n from hget]
  rfl

theorem Heap.get_modifyNode_ne {α : Type} (h : Heap α) {a b : Addr} (hne : b ≠ a)
    (f : Node α → Node α) : (h.modifyNode a f).get b = h.get b :=
  lookupA_modifyA_ne hne f

theorem Heap.isSome_get_modifyNode {α : Type} (h : Heap α) (a b : Addr)
    (f : Node α → Node α) : ((h.modifyNode a f).get b).isSome = (h.get b).isSome := by
  by_cases hab : b = a
  · subst hab
    simp [Heap.get, Heap.modifyNode, lookupA_modifyA_sameKey]
  · rw [Heap.get_modifyNode_ne h hab]

theorem Heap.get_free_self {α : Type} (h : Heap α) (a : Addr) :
    (h.free a).get a = none :=
  lookupA_removeA_self h.mem a

theorem Heap.get_free_ne {α : Type} (h : Heap α) {a b : Addr} (hne : b ≠ a) :
    (h.free a).get b = h.get b :=
  lookupA_removeA_ne hne

/-! ## Simulation lemmas: each operation refines the pure deque -/

theorem inv_stNew {α : Type} : Inv (stNew : St α) [] := by
  refine ⟨List.nodup_nil, rfl, rfl, ?_, List.nodup_nil, ?_, ?_⟩
  · intro a
    simp [stNew, Heap.get, lookupA, chainKeys]
  · intro i p hp
    simp at hp
  · intro a ha
    simp [chainKeys] at ha

theorem listOk_stNew {α : Type} : ListOk (stNew : St α) [] :=
  ⟨[], inv_stNew, rfl⟩

theorem fresh_not_mem {α : Type} {s : St α} {cs : List (Addr × α)} (h : Inv s cs) :
    s.heap.fresh ∉ chainKeys cs := fun hm => lt_irrefl _ (h.freshB _ hm)

theorem get_fresh_eq_none {α : Type} {s : St α} {cs : List (Addr × α)} (h : Inv s cs) :
    s.heap.get s.heap.fresh = none := by
  have := (h.dom s.heap.fresh).not
  rw [Option.not_isSome_iff_eq_none] at this
  exact this.mpr (fresh_not_mem h)

theorem fresh_not_mem_heapKeys {α : Type} {s : St α} {cs : List (Addr × α)} (h : Inv s cs) :
    s.heap.fresh ∉ s.heap.mem.map Prod.fst := by
  intro hm
  have : (s.heap.get s.heap.fresh).isSome := (lookupA_isSome_iff _ _).mpr hm
  rw [get_fresh_eq_none h] at this
  cases this

/-- Reduction of `push_front` on an empty list. -/
theorem pushFront_empty_eq {α : Type} (s : St α) (x : α) (hhead : s.list.head = none) :
    pushFront s x =
      ⟨⟨some s.heap.fresh, some s.heap.fresh⟩,
       ⟨(s.heap.fresh, ⟨x, none, none⟩) :: s.heap.mem, s.heap.fresh + 1⟩⟩ := by
  simp [pushFront, Heap.alloc, hhead]

/-- Reduction of `push_front` on a non-empty list. -/
theorem pushFront_cons_eq {α : Type} (s : St α) (x : α) {a : Addr}
    (hhead : s.list.head = some a) :
    pushFront s x =
      ⟨⟨some s.heap.fresh, s.list.tail⟩,
       ((Heap.mk ((s.heap.fresh, ⟨x, none, none⟩) :: s.heap.mem) (s.heap.fresh + 1)).modifyNode
           a (fun n => { n with prev := some s.heap.fresh })).modifyNode
         s.heap.fresh (fun n => { n with next := some a })⟩ := by
  simp [pushFront, Heap.alloc, hhead, Heap.modifyNode]

/-- Reduction of `push_back` on an empty list. -/
theorem pushBack_empty_eq {α : Type} (s : St α) (x : α) (htail : s.list.tail = none) :
    pushBack s x =
      ⟨⟨some s.heap.fresh, some s.heap.fresh⟩,
       ⟨(s.heap.fresh, ⟨x, none, none⟩) :: s.heap.mem, s.heap.fresh + 1⟩⟩ := by
  simp [pushBack, Heap.alloc, htail]

/-- Reduction of `push_back` on a non-empty list. -/
theorem pushBack_cons_eq {α : Type} (s : St α) (x : α) {a : Addr}
    (htail : s.list.tail = some a) :
    pushBack s x =
      ⟨⟨s.list.head, some s.heap.fresh⟩,
       ((Heap.mk ((s.heap.fresh, ⟨x, none, none⟩) :: s.heap.mem) (s.heap.fresh + 1)).modifyNode
           a (fun n => { n with next := some s.heap.fresh })).modifyNode
         s.heap.fresh (fun n => { n with prev := some a })⟩ := by
  simp [pushBack, Heap.alloc, htail, Heap.modifyNode]

/-- The state produced by pushing a first element into an empty list
satisfies the invariant with the one-node chain. -/
theorem inv_push_empty {α : Type} {s : St α} (h : Inv s []) (x : α) :
    Inv (⟨⟨some s.heap.fresh, some s.heap.fresh⟩,
          ⟨(s.heap.fresh, ⟨x, none, none⟩) :: s.heap.mem, s.heap.fresh + 1⟩⟩ : St α)
      [(s.heap.fresh, x)] := by
  have hfk := fresh_not_mem_heapKeys h
  refine ⟨?_, ?_, ?_, ?_, ?_, ?_, ?_⟩
  · simp [chainKeys]
  · simp [keyAt]
  · simp
  · intro a
    show (lookupA _ a).isSome ↔ _
    simp only [lookupA]
    by_cases ha : s.heap.fresh = a
    · subst ha; simp [chainKeys]
    · rw [if_neg ha]
      have h1 := h.dom a
      simp only [chainKeys, List.map_nil, List.not_mem_nil, iff_false,
        Bool.not_eq_true, Option.not_isSome_iff_eq_none] at h1
      show (lookupA s.heap.mem a).isSome ↔ _
      rw [show lookupA s.heap.mem a = s.heap.get a from rfl, h1]
      constructor
      · intro hs; simp at hs
      · intro hm
        have : a = s.heap.fresh := by simpa [chainKeys] using hm
        exact absurd this.symm ha
  · exact List.nodup_cons.mpr ⟨hfk, h.heapKeys⟩
  · intro i p hp
    cases i with
    | zero =>
      obtain rfl : (s.heap.fresh, x) = p := by simpa using hp
      show lookupA _ _ = _
      simp [lookupA, keyAt, prevKey]
    | succ j => simp at hp
  · intro a ha
    have : a = s.heap.fresh := by simpa [chainKeys] using ha
    simp [this]

theorem pushFront_inv {α : Type} {s : St α} {cs : List (Addr × α)} (h : Inv s cs) (x : α) :
    Inv (pushFront s x) ((s.heap.fresh, x) :: cs) := by
  have hf := fresh_not_mem h
  have hfget := get_fresh_eq_none h
  have hfk := fresh_not_mem_heapKeys h
  cases cs with
  | nil =>
    have hhead : s.list.head = none := by simpa [keyAt] using h.headOk
    rw [pushFront_empty_eq s x hhead]
    exact inv_push_empty h x
  | cons q rest =>
    have hhead : s.list.head = some q.1 := by simpa [keyAt] using h.headOk
    rw [pushFront_cons_eq s x hhead]
    have hq1 : q.1 ∈ chainKeys (q :: rest) := by simp [chainKeys]
    have hq1f : q.1 ≠ s.heap.fresh := fun he => hf (he ▸ hq1)
    set f := s.heap.fresh with hfdef
    set heap0 : Heap α := ⟨(f, ⟨x, none, none⟩) :: s.heap.mem, f + 1⟩ with hheap0
    have hget0 : ∀ b, heap0.get b = if f = b then some ⟨x, none, none⟩ else s.heap.get b :=
      fun b => rfl
    set heap1 := heap0.modifyNode q.1 (fun n => { n with prev := some f }) with hheap1
    set heap2 := heap1.modifyNode f (fun n => { n with next := some q.1 }) with hheap2
    have hn0 := h.nodes 0 q (by simp)
    have hprev0 : prevKey (q :: rest) 0 = none := rfl
    have hget1q : heap1.get q.1 = some ⟨q.2, keyAt (q :: rest) 1, some f⟩ := by
      have : heap0.get q.1 = some ⟨q.2, keyAt (q :: rest) 1, prevKey (q :: rest) 0⟩ := by
        rw [hget0, if_neg (Ne.symm hq1f)]; exact hn0
      rw [hheap1, Heap.get_modifyNode_self this]
    have hget2q : heap2.get q.1 = some ⟨q.2, keyAt (q :: rest) 1, some f⟩ := by
      rw [hheap2, Heap.get_modifyNode_ne _ hq1f, hget1q]
    have hget2f : heap2.get f = some ⟨x, some q.1, none⟩ := by
      have h1 : heap1.get f = some ⟨x, none, none⟩ := by
        rw [hheap1, Heap.get_modifyNode_ne _ (Ne.symm hq1f), hget0, if_pos rfl]
      rw [hheap2, Heap.get_modifyNode_self h1]
    have hget2other : ∀ b, b ≠ f → b ≠ q.1 → heap2.get b = s.heap.get b := by
      intro b hbf hbq
      rw [hheap2, Heap.get_modifyNode_ne _ hbf, hheap1, Heap.get_modifyNode_ne _ hbq,
        hget0, if_neg (Ne.symm hbf)]
    refine ⟨?_, ?_, ?_, ?_, ?_, ?_, ?_⟩
    · rw [show chainKeys ((f, x) :: q :: rest) = f :: chainKeys (q :: rest) from rfl]
      exact List.nodup_cons.mpr ⟨hf, h.nodup⟩
    · simp [keyAt]
    · rw [show ((f, x) :: q :: rest).getLast? = (q :: rest).getLast? from
        List.getLast?_cons_cons]
      exact h.tailOk
    · intro a
      have e1 : (heap2.get a).isSome = (heap0.get a).isSome := by
        rw [hheap2, Heap.isSome_get_modifyNode, hheap1, Heap.isSome_get_modifyNode]
      rw [e1, hget0]
      by_cases ha : f = a
      · subst ha; simp [chainKeys]
      · rw [if_neg ha, h.dom a]
        simp only [chainKeys, List.map_cons, List.mem_cons]
        constructor
        · exact fun hm => Or.inr hm
        · rintro (he | hm)
          · exact absurd he.symm ha
          · exact hm
    · have e1 : heap2.mem.map Prod.fst = heap0.mem.map Prod.fst := by
        rw [hheap2, hheap1]
        show (modifyA (modifyA _ _ _) _ _).map Prod.fst = _
        rw [keys_modifyA, keys_modifyA]
      rw [e1]
      exact List.nodup_cons.mpr ⟨hfk, h.heapKeys⟩
    · intro i p hp
      match i, hp with
      | 0, hp =>
        obtain rfl : (f, x) = p := by simpa using hp
        show heap2.get f = _
        rw [hget2f]
        simp [keyAt, prevKey]
      | 1, hp =>
        obtain rfl : q = p := by simpa using hp
        show heap2.get q.1 = _
        rw [hget2q]
        have e2 : keyAt ((f, x) :: q :: rest) 2 = keyAt (q :: rest) 1 :=
          keyAt_cons_succ _ _ 1
        have e3 : prevKey ((f, x) :: q :: rest) 1 = some f := by
          simp [prevKey, keyAt]
        rw [e2, e3]
      | (j + 2), hp =>
        have hp' : (q :: rest)[j + 1]? = some p := by simpa using hp
        have hold := h.nodes (j + 1) p hp'
        have hpmem : p.1 ∈ chainKeys (q :: rest) :=
          keyAt_mem_chainKeys
            (show keyAt (q :: rest) (j + 1) = some p.1 by simp [keyAt, hp'])
        have hpf : p.1 ≠ f := fun he => hf (he ▸ hpmem)
        have hpq : p.1 ≠ q.1 := by
          intro he
          have h1 : keyAt (q :: rest) (j + 1) = some q.1 := by
            simp [keyAt, hp', he]
          have h2 : keyAt (q :: rest) 0 = some q.1 := by simp [keyAt]
          exact Nat.succ_ne_zero j (keyAt_inj h.nodup h1 h2)
        show heap2.get p.1 = _
        rw [hget2other p.1 hpf hpq, hold]
        have e2 : keyAt ((f, x) :: q :: rest) (j + 3) = keyAt (q :: rest) (j + 2) :=
          keyAt_cons_succ _ _ (j + 2)
        have e3 : prevKey ((f, x) :: q :: rest) (j + 2) = prevKey (q :: rest) (j + 1) := by
          show keyAt ((f, x) :: q :: rest) (j + 1) = keyAt (q :: rest) j
          exact keyAt_cons_succ _ _ j
        rw [e2, e3]
    · intro a ha
      rw [show chainKeys ((f, x) :: q :: rest) = f :: chainKeys (q :: rest) from rfl] at ha
      show a < f + 1
      rcases List.mem_cons.mp ha with he | hm
      · simp [he]
      · exact Nat.lt_succ_of_lt (h.freshB a hm)

theorem pushBack_inv {α : Type} {s : St α} {cs : List (Addr × α)} (h : Inv s cs) (x : α) :
    Inv (pushBack s x) (cs ++ [(s.heap.fresh, x)]) := by
  have hf := fresh_not_mem h
  have hfk := fresh_not_mem_heapKeys h
  rcases hlast : cs.getLast? with _ | r
  · have hnil : cs = [] := List.getLast?_eq_none_iff.mp hlast
    subst hnil
    have htail : s.list.tail = none := by simpa using h.tailOk
    rw [pushBack_empty_eq s x htail]
    exact inv_push_empty h x
  · have htail : s.list.tail = some r.1 := by rw [h.tailOk, hlast]; rfl
    rw [pushBack_cons_eq s x htail]
    obtain ⟨k, hlen⟩ : ∃ k, cs.length = k + 1 := by
      cases cs with
      | nil => simp at hlast
      | cons a l => exact ⟨l.length, rfl⟩
    have hrk : cs[k]? = some r := by
      have h1 := List.getLast?_eq_getElem? cs
      rw [hlast, hlen] at h1
      simpa using h1.symm
    have hkeyk : keyAt cs k = some r.1 := by simp [keyAt, hrk]
    have hrmem : r.1 ∈ chainKeys cs := keyAt_mem_chainKeys hkeyk
    have hrf : r.1 ≠ s.heap.fresh := fun he => hf (he ▸ hrmem)
    set f := s.heap.fresh with hfdef
    set heap0 : Heap α := ⟨(f, ⟨x, none, none⟩) :: s.heap.mem, f + 1⟩ with hheap0
    have hget0 : ∀ b, heap0.get b = if f = b then some ⟨x, none, none⟩ else s.heap.get b :=
      fun b => rfl
    set heap1 := heap0.modifyNode r.1 (fun n => { n with next := some f }) with hheap1
    set heap2 := heap1.modifyNode f (fun n => { n with prev := some r.1 }) with hheap2
    have hnk := h.nodes k r hrk
    have hget1r : heap1.get r.1 = some ⟨r.2, some f, prevKey cs k⟩ := by
      have h0 : heap0.get r.1 = some ⟨r.2, keyAt cs (k + 1), prevKey cs k⟩ := by
        rw [hget0, if_neg (Ne.symm hrf)]; exact hnk
      rw [hheap1, Heap.get_modifyNode_self h0]
    have hget2r : heap2.get r.1 = some ⟨r.2, some f, prevKey cs k⟩ := by
      rw [hheap2, Heap.get_modifyNode_ne _ hrf, hget1r]
    have hget2f : heap2.get f = some ⟨x, none, some r.1⟩ := by
      have h1 : heap1.get f = some ⟨x, none, none⟩ := by
        rw [hheap1, Heap.get_modifyNode_ne _ (Ne.symm hrf), hget0, if_pos rfl]
      rw [hheap2, Heap.get_modifyNode_self h1]
    have hget2other : ∀ b, b ≠ f → b ≠ r.1 → heap2.get b = s.heap.get b := by
      intro b hbf hbr
      rw [hheap2, Heap.get_modifyNode_ne _ hbf, hheap1, Heap.get_modifyNode_ne _ hbr,
        hget0, if_neg (Ne.symm hbf)]
    have hchainKeys : chainKeys (cs ++ [(f, x)]) = chainKeys cs ++ [f] := by
      simp [chainKeys]
    refine ⟨?_, ?_, ?_, ?_, ?_, ?_, ?_⟩
    · rw [hchainKeys]
      refine List.Nodup.append h.nodup (List.nodup_singleton f) ?_
      intro a ha hb
      have : a = f := List.mem_singleton.mp hb
      exact hf (this ▸ ha)
    · rw [keyAt_append_lt (by omega) _]
      exact h.headOk
    · rw [List.getLast?_concat]
      rfl
    · intro a
      have e1 : (heap2.get a).isSome = (heap0.get a).isSome := by
        rw [hheap2, Heap.isSome_get_modifyNode, hheap1, Heap.isSome_get_modifyNode]
      rw [e1, hget0, hchainKeys]
      by_cases ha : f = a
      · subst ha; simp
      · rw [if_neg ha, h.dom a]
        rw [List.mem_append, List.mem_singleton]
        constructor
        · exact Or.inl
        · rintro (hm | he)
          · exact hm
          · exact absurd he.symm ha
    · have e1 : heap2.mem.map Prod.fst = heap0.mem.map Prod.fst := by
        rw [hheap2, hheap1]
        show (modifyA (modifyA _ _ _) _ _).map Prod.fst = _
        rw [keys_modifyA, keys_modifyA]
      rw [e1]
      exact List.nodup_cons.mpr ⟨hfk, h.heapKeys⟩
    · intro i p hp
      rcases lt_trichotomy i k with hik | rfl | hik
      · have hpi : cs[i]? = some p := by
          rw [List.getElem?_append_left (by omega : i < cs.length)] at hp
          exact hp
        have hold := h.nodes i p hpi
        have hkeyi : keyAt cs i = some p.1 := by simp [keyAt, hpi]
        have hpmem : p.1 ∈ chainKeys cs := keyAt_mem_chainKeys hkeyi
        have hpf : p.1 ≠ f := fun he => hf (he ▸ hpmem)
        have hpr : p.1 ≠ r.1 := by
          intro he
          exact absurd (keyAt_inj h.nodup (he ▸ hkeyi) hkeyk) (by omega)
        rw [hget2other p.1 hpf hpr, hold]
        have e2 : keyAt (cs ++ [(f, x)]) (i + 1) = keyAt cs (i + 1) :=
          keyAt_append_lt (by omega) _
        have e3 : prevKey (cs ++ [(f, x)]) i = prevKey cs i := by
          cases i with
          | zero => rfl
          | succ j => show keyAt _ j = keyAt cs j; exact keyAt_append_lt (by omega) _
        rw [e2, e3]
      · have hpi : p = r := by
          have h1 : (cs ++ [(f, x)])[i]? = some r := by
            rw [List.getElem?_append_left (by omega : i < cs.length)]; exact hrk
          rw [hp] at h1; exact Option.some_inj.mp h1
        subst hpi
        rw [hget2r]
        have e2 : keyAt (cs ++ [(f, x)]) (i + 1) = some f := by
          rw [show i + 1 = cs.length from hlen.symm]
          exact keyAt_concat_length cs _
        have e3 : prevKey (cs ++ [(f, x)]) i = prevKey cs i := by
          cases i with
          | zero => rfl
          | succ j => show keyAt _ j = keyAt cs j; exact keyAt_append_lt (by omega) _
        rw [e2, e3]
      · rcases Nat.lt_or_ge i (k + 2) with hik2 | hik2
        · have hieq : i = k + 1 := by omega
          subst hieq
          have hpi : p = (f, x) := by
            have h1 : (cs ++ [(f, x)])[k + 1]? = some (f, x) := by
              rw [show k + 1 = cs.length from hlen.symm]
              exact List.getElem?_concat_length cs _
            rw [hp] at h1; exact Option.some_inj.mp h1
          subst hpi
          rw [hget2f]
          have e2 : keyAt (cs ++ [(f, x)]) (k + 2) = none := by
            have : (cs ++ [(f, x)]).length ≤ k + 2 := by simp [hlen]
            simp [keyAt, List.getElem?_eq_none this]
          have e3 : prevKey (cs ++ [(f, x)]) (k + 1) = some r.1 := by
            show keyAt _ k = some r.1
            rw [keyAt_append_lt (by omega) _]; exact hkeyk
          rw [e2, e3]
        · exfalso
          have h1 : (cs ++ [(f, x)])[i]? = none := by
            refine List.getElem?_eq_none ?_
            simp only [List.length_append, List.length_cons, List.length_nil, hlen]
            omega
          rw [hp] at h1; cases h1
    · intro a ha
      rw [hchainKeys, List.mem_append, List.mem_singleton] at ha
      show a < f + 1
      rcases ha with hm | he
      · exact Nat.lt_succ_of_lt (h.freshB a hm)
      · simp [he]

/-- Every node in the heap sits at some chain position, and its links are
the chain neighbours of that position. -/
theorem addr_index {α : Type} {s : St α} {cs : List (Addr × α)} (h : Inv s cs)
    {b : Addr} {n : Node α} (hb : s.heap.get b = some n) :
    ∃ i p, cs[i]? = some p ∧ p.1 = b ∧ n = ⟨p.2, keyAt cs (i + 1), prevKey cs i⟩ := by
  have hbmem : b ∈ chainKeys cs := (h.dom b).mp (by simp [hb])
  obtain ⟨i, hi⟩ := mem_chainKeys_iff_keyAt.mp hbmem
  obtain ⟨p, hp, hpb⟩ : ∃ p, cs[i]? = some p ∧ p.1 = b := by
    unfold keyAt at hi
    cases hcp : cs[i]? with
    | none => rw [hcp] at hi; cases hi
    | some p => rw [hcp] at hi; exact ⟨p, rfl, by simpa using hi⟩
  have hn := h.nodes i p hp
  rw [hpb, hb] at hn
  exact ⟨i, p, hp, hpb, Option.some_inj.mp hn⟩

/-- No node's forward link targets the head node. -/
theorem next_ne_head {α : Type} {s : St α} {q : Addr × α} {rest : List (Addr × α)}
    (h : Inv s (q :: rest)) {b : Addr} {n : Node α}
    (hb : s.heap.get b = some n) : n.next ≠ some q.1 := by
  obtain ⟨i, p, hp, hpb, rfl⟩ := addr_index h hb
  intro he
  have he' : keyAt (q :: rest) (i + 1) = some q.1 := he
  have h0 : keyAt (q :: rest) 0 = some q.1 := by simp [keyAt]
  exact Nat.succ_ne_zero i (keyAt_inj h.nodup he' h0)

/-- The only node whose backward link targets the head node is the one in
chain position 1 (the second node). -/
theorem prev_eq_head {α : Type} {s : St α} {q : Addr × α} {rest : List (Addr × α)}
    (h : Inv s (q :: rest)) {b : Addr} {n : Node α}
    (hb : s.heap.get b = some n) (he : n.prev = some q.1) :
    keyAt (q :: rest) 1 = some b := by
  obtain ⟨i, p, hp, hpb, rfl⟩ := addr_index h hb
  cases i with
  | zero => cases he
  | succ j =>
    have he' : keyAt (q :: rest) j = some q.1 := he
    have h0 : keyAt (q :: rest) 0 = some q.1 := by simp [keyAt]
    have hj : j = 0 := keyAt_inj h.nodup he' h0
    subst hj
    rw [← hpb]
    simp [keyAt, hp]

/-- No node's backward link targets the tail node. -/
theorem prev_ne_last {α : Type} {s : St α} {ds : List (Addr × α)} {q : Addr × α}
    (h : Inv s (ds ++ [q])) {b : Addr} {n : Node α}
    (hb : s.heap.get b = some n) : n.prev ≠ some q.1 := by
  obtain ⟨i, p, hp, hpb, rfl⟩ := addr_index h hb
  intro he
  cases i with
  | zero => cases he
  | succ j =>
    have he' : keyAt (ds ++ [q]) j = some q.1 := he
    have hk : keyAt (ds ++ [q]) ds.length = some q.1 := keyAt_concat_length ds q
    have hj : j = ds.length := keyAt_inj h.nodup he' hk
    have : j + 1 < (ds ++ [q]).length := by
      by_contra hc
      rw [List.getElem?_eq_none (Nat.le_of_not_lt hc)] at hp
      cases hp
    simp [List.length_append] at this
    omega

/-- The only node whose forward link targets the tail node is the one in
the second-to-last chain position. -/
theorem next_eq_last {α : Type} {s : St α} {ds : List (Addr × α)} {q : Addr × α}
    (h : Inv s (ds ++ [q])) {b : Addr} {n : Node α}
    (hb : s.heap.get b = some n) (he : n.next = some q.1) :
    0 < ds.length ∧ keyAt (ds ++ [q]) (ds.length - 1) = some b := by
  obtain ⟨i, p, hp, hpb, rfl⟩ := addr_index h hb
  have he' : keyAt (ds ++ [q]) (i + 1) = some q.1 := he
  have hk : keyAt (ds ++ [q]) ds.length = some q.1 := keyAt_concat_length ds q
  have hi : i + 1 = ds.length := keyAt_inj h.nodup he' hk
  refine ⟨by omega, ?_⟩
  rw [show ds.length - 1 = i by omega, ← hpb]
  simp [keyAt, hp]

theorem popFront_nil {α : Type} {s : St α} (h : Inv s []) : popFront s = some (none, s) := by
  have hhead : s.list.head = none := by simpa [keyAt] using h.headOk
  simp [popFront, hhead]

theorem popBack_nil {α : Type} {s : St α} (h : Inv s []) : popBack s = some (none, s) := by
  have htail : s.list.tail = none := by simpa using h.tailOk
  simp [popBack, htail]

/-- `pop_front` on a non-empty list: the unique-ownership unwrap
succeeds, the front element is returned, and the invariant is
re-established on the remaining chain. -/
theorem popFront_inv_cons {α : Type} {s : St α} {q : Addr × α} {rest : List (Addr × α)}
    (h : Inv s (q :: rest)) :
    ∃ s' : St α, popFront s = some (some q.2, s') ∧ Inv s' rest := by
  have hhead : s.list.head = some q.1 := by simpa [keyAt] using h.headOk
  have hn0 := h.nodes 0 q (by simp)
  cases rest with
  | nil =>
    have hget : s.heap.get q.1 = some ⟨q.2, none, none⟩ := by
      simpa [keyAt, prevKey] using hn0
    set heap1 := s.heap.modifyNode q.1 (fun n => { n with next := none }) with hheap1
    have hkeys1 : (heap1.mem.map Prod.fst).Nodup := by
      rw [hheap1]
      show ((modifyA s.heap.mem q.1 _).map Prod.fst).Nodup
      rw [keys_modifyA]; exact h.heapKeys
    have hget1q : heap1.get q.1 = some ⟨q.2, none, none⟩ := by
      rw [hheap1, Heap.get_modifyNode_self hget]
    have hrefs : refsA heap1.mem q.1 = 0 := by
      apply refsA_eq_zero
      intro p hp
      have hlp := lookupA_of_mem_nodup hkeys1 hp
      by_cases hpq : p.1 = q.1
      · rw [hpq] at hlp
        rw [show lookupA heap1.mem q.1 = heap1.get q.1 from rfl, hget1q] at hlp
        have hp2 : p.2 = ⟨q.2, none, none⟩ := (Option.some_inj.mp hlp).symm
        rw [hp2]
        simp
      · rw [show lookupA heap1.mem p.1 = heap1.get p.1 from rfl, hheap1,
          Heap.get_modifyNode_ne _ hpq] at hlp
        refine ⟨next_ne_head h hlp, ?_⟩
        intro he
        have h1 := prev_eq_head h hlp he
        simp [keyAt] at h1
    have hrefzero : refCount ⟨none, none⟩ heap1 q.1 = 0 := by
      simp [refCount, hrefs]
    refine ⟨⟨⟨none, none⟩, heap1.free q.1⟩, ?_, ?_⟩
    · simp only [popFront, hhead, hget]
      rw [if_pos hrefzero]
    · refine ⟨List.nodup_nil, by simp [keyAt], by simp, ?_, ?_, ?_, ?_⟩
      · intro a
        have hnone : (heap1.free q.1).get a = none := by
          by_cases ha : a = q.1
          · subst ha; exact Heap.get_free_self _ _
          · rw [Heap.get_free_ne _ ha]
            have h1 : (heap1.get a).isSome = (s.heap.get a).isSome := by
              rw [hheap1]; exact Heap.isSome_get_modifyNode _ _ _ _
            have h2 := h.dom a
            simp only [chainKeys, List.map_cons, List.map_nil,
              List.mem_singleton] at h2
            have h3 : ¬ (s.heap.get a).isSome := by
              rw [h2]; exact ha
            rw [← Option.not_isSome_iff_eq_none, h1]
            exact h3
        show ((heap1.free q.1).get a).isSome ↔ _
        rw [hnone]
        simp [chainKeys]
      · show ((removeA heap1.mem q.1).map Prod.fst).Nodup
        exact (keys_removeA_sublist heap1.mem q.1).nodup hkeys1
      · intro i p hp; simp at hp
      · intro a ha; simp [chainKeys] at ha
  | cons r rest' =>
    have hqr : q.1 ∉ chainKeys (r :: rest') := by
      have := h.nodup
      rw [show chainKeys (q :: r :: rest') = q.1 :: chainKeys (r :: rest') from rfl] at this
      exact (List.nodup_cons.mp this).1
    have hq1r1 : q.1 ≠ r.1 := by
      intro he
      exact hqr (he ▸ (by simp [chainKeys] : r.1 ∈ chainKeys (r :: rest')))
    have hget : s.heap.get q.1 = some ⟨q.2, some r.1, none⟩ := by
      simpa [keyAt, prevKey] using hn0
    have hnr := h.nodes 1 r (by simp)
    have hprev1 : prevKey (q :: r :: rest') 1 = some q.1 := by simp [prevKey, keyAt]
    rw [hprev1] at hnr
    set heap1 := s.heap.modifyNode q.1 (fun n => { n with next := none }) with hheap1
    set heap2 := heap1.modifyNode r.1 (fun n => { n with prev := none }) with hheap2
    have hkeys2 : (heap2.mem.map Prod.fst).Nodup := by
      rw [hheap2, hheap1]
      show ((modifyA (modifyA s.heap.mem q.1 _) _ _).map Prod.fst).Nodup
      rw [keys_modifyA, keys_modifyA]; exact h.heapKeys
    have hget2q : heap2.get q.1 = some ⟨q.2, none, none⟩ := by
      rw [hheap2, Heap.get_modifyNode_ne _ hq1r1, hheap1, Heap.get_modifyNode_self hget]
    have hget2r : heap2.get r.1 = some ⟨r.2, keyAt (q :: r :: rest') 2, none⟩ := by
      have h1 : heap1.get r.1 = some ⟨r.2, keyAt (q :: r :: rest') 2, some q.1⟩ := by
        rw [hheap1, Heap.get_modifyNode_ne _ (Ne.symm hq1r1)]; exact hnr
      rw [hheap2, Heap.get_modifyNode_self h1]
    have hget2other : ∀ b, b ≠ q.1 → b ≠ r.1 → heap2.get b = s.heap.get b := by
      intro b hbq hbr
      rw [hheap2, Heap.get_modifyNode_ne _ hbr, hheap1, Heap.get_modifyNode_ne _ hbq]
    obtain ⟨t, ht⟩ : ∃ t, (r :: rest').getLast? = some t := by
      cases h2 : (r :: rest').getLast? with
      | none => rw [List.getLast?_eq_none_iff] at h2; cases h2
      | some t => exact ⟨t, rfl⟩
    have htail : s.list.tail = some t.1 := by
      rw [h.tailOk, List.getLast?_cons_cons, ht]; rfl
    have htq : t.1 ≠ q.1 := by
      intro he
      exact hqr (he ▸ List.mem_map_of_mem Prod.fst (List.mem_of_getLast?_eq_some ht))
    have hk2q : keyAt (q :: r :: rest') 2 ≠ some q.1 := by
      intro he
      have h0 : keyAt (q :: r :: rest') 0 = some q.1 := by simp [keyAt]
      exact (by omega : (2 : Nat) ≠ 0) (keyAt_inj h.nodup he h0)
    have hrefs : refsA heap2.mem q.1 = 0 := by
      apply refsA_eq_zero
      intro p hp
      have hlp := lookupA_of_mem_nodup hkeys2 hp
      by_cases hpq : p.1 = q.1
      · rw [hpq, show lookupA heap2.mem q.1 = heap2.get q.1 from rfl, hget2q] at hlp
        have hp2 : p.2 = ⟨q.2, none, none⟩ := (Option.some_inj.mp hlp).symm
        rw [hp2]; simp
      · by_cases hpr : p.1 = r.1
        · rw [hpr, show lookupA heap2.mem r.1 = heap2.get r.1 from rfl, hget2r] at hlp
          have hp2 : p.2 = ⟨r.2, keyAt (q :: r :: rest') 2, none⟩ :=
            (Option.some_inj.mp hlp).symm
          rw [hp2]
          exact ⟨hk2q, by simp⟩
        · rw [show lookupA heap2.mem p.1 = heap2.get p.1 from rfl,
            hget2other p.1 hpq hpr] at hlp
          refine ⟨next_ne_head h hlp, ?_⟩
          intro he
          have h1 := prev_eq_head h hlp he
          have h2 : keyAt (q :: r :: rest') 1 = some r.1 := by simp [keyAt]
          rw [h2] at h1
          exact hpr (Option.some_inj.mp h1.symm)
    have hrefzero : refCount ⟨some r.1, s.list.tail⟩ heap2 q.1 = 0 := by
      simp only [refCount, hrefs, htail]
      simp [Ne.symm hq1r1, htq]
    refine ⟨⟨⟨some r.1, s.list.tail⟩, heap2.free q.1⟩, ?_, ?_⟩
    · simp only [popFront, hhead, hget]
      rw [if_pos hrefzero]
    · have hreststay : ∀ (i : Nat) (p : Addr × α), (r :: rest')[i]? = some p → p.1 ≠ q.1 := by
        intro i p hp he
        have : p.1 ∈ chainKeys (r :: rest') :=
          keyAt_mem_chainKeys (by simp [keyAt, hp] : keyAt (r :: rest') i = some p.1)
        exact hqr (he ▸ this)
      refine ⟨?_, ?_, ?_, ?_, ?_, ?_, ?_⟩
      · have := h.nodup
        rw [show chainKeys (q :: r :: rest') = q.1 :: chainKeys (r :: rest') from rfl] at this
        exact (List.nodup_cons.mp this).2
      · simp [keyAt]
      · show s.list.tail = _
        rw [h.tailOk, List.getLast?_cons_cons]
      · intro a
        by_cases ha : a = q.1
        · subst ha
          show ((heap2.free q.1).get q.1).isSome ↔ _
          rw [Heap.get_free_self]
          simp only [Option.isSome_none, Bool.false_eq_true, false_iff]
          exact hqr
        · show ((heap2.free q.1).get a).isSome ↔ _
          rw [Heap.get_free_ne _ ha]
          have e1 : (heap2.get a).isSome = (s.heap.get a).isSome := by
            rw [hheap2, Heap.isSome_get_modifyNode, hheap1, Heap.isSome_get_modifyNode]
          rw [e1, h.dom a]
          rw [show chainKeys (q :: r :: rest') = q.1 :: chainKeys (r :: rest') from rfl]
          rw [List.mem_cons]
          constructor
          · rintro (he | hm)
            · exact absurd he ha
            · exact hm
          · exact Or.inr
      · show ((removeA heap2.mem q.1).map Prod.fst).Nodup
        exact (keys_removeA_sublist heap2.mem q.1).nodup hkeys2
      · intro i p hp
        have hpq := hreststay i p hp
        show (heap2.free q.1).get p.1 = _
        rw [Heap.get_free_ne _ hpq]
        cases i with
        | zero =>
          obtain rfl : r = p := by simpa using hp
          rw [hget2r]
          have e2 : keyAt (q :: r :: rest') 2 = keyAt (r :: rest') 1 := keyAt_cons_succ _ _ 1
          rw [e2]
          rfl
        | succ j =>
          have hp' : (q :: r :: rest')[j + 2]? = some p := by simpa using hp
          have hold := h.nodes (j + 2) p hp'
          have hpr : p.1 ≠ r.1 := by
            intro he
            have h1 : keyAt (r :: rest') (j + 1) = some r.1 := by simp [keyAt, hp, he]
            have h2 : keyAt (r :: rest') 0 = some r.1 := by simp [keyAt]
            have := h.nodup
            rw [show chainKeys (q :: r :: rest') = q.1 :: chainKeys (r :: rest') from
              rfl] at this
            exact Nat.succ_ne_zero j (keyAt_inj (List.nodup_cons.mp this).2 h1 h2)
          rw [hget2other p.1 hpq hpr, hold]
          have e2 : keyAt (q :: r :: rest') (j + 3) = keyAt (r :: rest') (j + 2) :=
            keyAt_cons_succ _ _ (j + 2)
          have e3 : prevKey (q :: r :: rest') (j + 2) = prevKey (r :: rest') (j + 1) := by
            show keyAt (q :: r :: rest') (j + 1) = keyAt (r :: rest') j
            exact keyAt_cons_succ _ _ j
          rw [e2, e3]
      · intro a ha
        show a < s.heap.fresh
        refine h.freshB a ?_
        rw [show chainKeys (q :: r :: rest') = q.1 :: chainKeys (r :: rest') from rfl]
        exact List.mem_cons_of_mem _ ha

/-- `pop_back` on a non-empty list: the unique-ownership unwrap
succeeds, the back element is returned, and the invariant is
re-established on the remaining chain. -/
theorem popBack_inv_concat {α : Type} {s : St α} {ds : List (Addr × α)} {q : Addr × α}
    (h : Inv s (ds ++ [q])) :
    ∃ s' : St α, popBack s = some (some q.2, s') ∧ Inv s' ds := by
  have htail : s.list.tail = some q.1 := by
    rw [h.tailOk, List.getLast?_concat]; rfl
  have hchainKeys : chainKeys (ds ++ [q]) = chainKeys ds ++ [q.1] := by simp [chainKeys]
  have hnodup_parts := List.nodup_append.mp (by rw [← hchainKeys]; exact h.nodup)
  have hq1ds : q.1 ∉ chainKeys ds := fun hm =>
    hnodup_parts.2.2 hm (List.mem_singleton.mpr rfl)
  have hnext_none : keyAt (ds ++ [q]) (ds.length + 1) = none := by
    refine (Option.map_eq_none').mpr (List.getElem?_eq_none ?_)
    simp
  have hnq := h.nodes ds.length q (by rw [← List.getElem?_concat_length ds q])
  rw [hnext_none] at hnq
  rcases hlastc : ds.getLast? with _ | r
  · have hnil : ds = [] := List.getLast?_eq_none_iff.mp hlastc
    subst hnil
    have hget : s.heap.get q.1 = some ⟨q.2, none, none⟩ := by simpa [prevKey] using hnq
    set heap1 := s.heap.modifyNode q.1 (fun n => { n with prev := none }) with hheap1
    have hkeys1 : (heap1.mem.map Prod.fst).Nodup := by
      rw [hheap1]
      show ((modifyA s.heap.mem q.1 _).map Prod.fst).Nodup
      rw [keys_modifyA]; exact h.heapKeys
    have hget1q : heap1.get q.1 = some ⟨q.2, none, none⟩ := by
      rw [hheap1, Heap.get_modifyNode_self hget]
    have hrefs : refsA heap1.mem q.1 = 0 := by
      apply refsA_eq_zero
      intro p hp
      have hlp := lookupA_of_mem_nodup hkeys1 hp
      by_cases hpq : p.1 = q.1
      · rw [hpq, show lookupA heap1.mem q.1 = heap1.get q.1 from rfl, hget1q] at hlp
        have hp2 : p.2 = ⟨q.2, none, none⟩ := (Option.some_inj.mp hlp).symm
        rw [hp2]; simp
      · rw [show lookupA heap1.mem p.1 = heap1.get p.1 from rfl, hheap1,
          Heap.get_modifyNode_ne _ hpq] at hlp
        refine ⟨?_, prev_ne_last h hlp⟩
        intro he
        obtain ⟨hpos, -⟩ := next_eq_last h hlp he
        simp at hpos
    have hrefzero : refCount ⟨none, none⟩ heap1 q.1 = 0 := by
      simp [refCount, hrefs]
    refine ⟨⟨⟨none, none⟩, heap1.free q.1⟩, ?_, ?_⟩
    · simp only [popBack, htail, hget]
      rw [if_pos hrefzero]
    · refine ⟨List.nodup_nil, by simp [keyAt], by simp, ?_, ?_, ?_, ?_⟩
      · intro a
        have hnone : (heap1.free q.1).get a = none := by
          by_cases ha : a = q.1
          · subst ha; exact Heap.get_free_self _ _
          · rw [Heap.get_free_ne _ ha]
            have h1 : (heap1.get a).isSome = (s.heap.get a).isSome := by
              rw [hheap1]; exact Heap.isSome_get_modifyNode _ _ _ _
            have h2 := h.dom a
            simp only [List.nil_append] at h2
            simp only [chainKeys, List.map_cons, List.map_nil,
              List.mem_singleton] at h2
            have h3 : ¬ (s.heap.get a).isSome := by rw [h2]; exact ha
            rw [← Option.not_isSome_iff_eq_none, h1]
            exact h3
        show ((heap1.free q.1).get a).isSome ↔ _
        rw [hnone]
        simp [chainKeys]
      · show ((removeA heap1.mem q.1).map Prod.fst).Nodup
        exact (keys_removeA_sublist heap1.mem q.1).nodup hkeys1
      · intro i p hp; simp at hp
      · intro a ha; simp [chainKeys] at ha
  · have hlast : ds.getLast? = some r := hlastc
    have hpos : 0 < ds.length := by
      rcases ds with _ | ⟨d0, dtail⟩
      · cases hlast
      · simp
    obtain ⟨j, hlen⟩ : ∃ j, ds.length = j + 1 := ⟨ds.length - 1, by omega⟩
    have hrj : ds[j]? = some r := by
      have h1 := List.getLast?_eq_getElem? ds
      rw [hlast, hlen] at h1
      simpa using h1.symm
    have hrcs : (ds ++ [q])[j]? = some r := by
      rw [List.getElem?_append_left (by omega : j < ds.length)]; exact hrj
    have hkeyj : keyAt (ds ++ [q]) j = some r.1 := by simp [keyAt, hrcs]
    have hrmem : r.1 ∈ chainKeys ds :=
      keyAt_mem_chainKeys (by simp [keyAt, hrj] : keyAt ds j = some r.1)
    have hq1r1 : q.1 ≠ r.1 := fun he => hq1ds (he ▸ hrmem)
    have hprevq : prevKey (ds ++ [q]) ds.length = some r.1 := by
      rw [hlen]
      show keyAt (ds ++ [q]) j = some r.1
      exact hkeyj
    rw [hprevq] at hnq
    have hget : s.heap.get q.1 = some ⟨q.2, none, some r.1⟩ := hnq
    have hnr := h.nodes j r hrcs
    have hkeyq : keyAt (ds ++ [q]) (j + 1) = some q.1 := by
      rw [← hlen]
      exact keyAt_concat_length ds q
    rw [hkeyq] at hnr
    set heap1 := s.heap.modifyNode q.1 (fun n => { n with prev := none }) with hheap1
    set heap2 := heap1.modifyNode r.1 (fun n => { n with next := none }) with hheap2
    have hkeys2 : (heap2.mem.map Prod.fst).Nodup := by
      rw [hheap2, hheap1]
      show ((modifyA (modifyA s.heap.mem q.1 _) _ _).map Prod.fst).Nodup
      rw [keys_modifyA, keys_modifyA]; exact h.heapKeys
    have hget2q : heap2.get q.1 = some ⟨q.2, none, none⟩ := by
      rw [hheap2, Heap.get_modifyNode_ne _ hq1r1, hheap1, Heap.get_modifyNode_self hget]
    have hget2r : heap2.get r.1 = some ⟨r.2, none, prevKey (ds ++ [q]) j⟩ := by
      have h1 : heap1.get r.1 = some ⟨r.2, some q.1, prevKey (ds ++ [q]) j⟩ := by
        rw [hheap1, Heap.get_modifyNode_ne _ (Ne.symm hq1r1)]; exact hnr
      rw [hheap2, Heap.get_modifyNode_self h1]
    have hget2other : ∀ b, b ≠ q.1 → b ≠ r.1 → heap2.get b = s.heap.get b := by
      intro b hbq hbr
      rw [hheap2, Heap.get_modifyNode_ne _ hbr, hheap1, Heap.get_modifyNode_ne _ hbq]
    have hhead : s.list.head = keyAt ds 0 := by
      rw [h.headOk, keyAt_append_lt (by omega : 0 < ds.length)]
    obtain ⟨t, ht⟩ : ∃ t, ds[0]? = some t := by
      cases h2 : ds[0]? with
      | none =>
        rw [List.getElem?_eq_none_iff] at h2
        omega
      | some t => exact ⟨t, rfl⟩
    have hheadt : s.list.head = some t.1 := by rw [hhead]; simp [keyAt, ht]
    have htq : t.1 ≠ q.1 := by
      intro he
      refine hq1ds ?_
      rw [← he]
      exact keyAt_mem_chainKeys (by simp [keyAt, ht] : keyAt ds 0 = some t.1)
    have hprevj_ne : prevKey (ds ++ [q]) j ≠ some q.1 := by
      cases hj : j with
      | zero => simp [prevKey]
      | succ j' =>
        show keyAt (ds ++ [q]) j' ≠ some q.1
        intro he
        have hk : keyAt (ds ++ [q]) (j + 1) = some q.1 := hkeyq
        have := keyAt_inj h.nodup he hk
        omega
    have hrefs : refsA heap2.mem q.1 = 0 := by
      apply refsA_eq_zero
      intro p hp
      have hlp := lookupA_of_mem_nodup hkeys2 hp
      by_cases hpq : p.1 = q.1
      · rw [hpq, show lookupA heap2.mem q.1 = heap2.get q.1 from rfl, hget2q] at hlp
        have hp2 : p.2 = ⟨q.2, none, none⟩ := (Option.some_inj.mp hlp).symm
        rw [hp2]; simp
      · by_cases hpr : p.1 = r.1
        · rw [hpr, show lookupA heap2.mem r.1 = heap2.get r.1 from rfl, hget2r] at hlp
          have hp2 : p.2 = ⟨r.2, none, prevKey (ds ++ [q]) j⟩ :=
            (Option.some_inj.mp hlp).symm
          rw [hp2]
          exact ⟨by simp, hprevj_ne⟩
        · rw [show lookupA heap2.mem p.1 = heap2.get p.1 from rfl,
            hget2other p.1 hpq hpr] at hlp
          refine ⟨?_, prev_ne_last h hlp⟩
          intro he
          obtain ⟨_, hkey⟩ := next_eq_last h hlp he
          rw [hlen] at hkey
          simp only [Nat.add_sub_cancel] at hkey
          rw [hkeyj] at hkey
          exact hpr (Option.some_inj.mp hkey.symm)
    have hrefzero : refCount ⟨s.list.head, some r.1⟩ heap2 q.1 = 0 := by
      simp only [refCount, hrefs, hheadt]
      simp [htq, Ne.symm hq1r1]
    refine ⟨⟨⟨s.list.head, some r.1⟩, heap2.free q.1⟩, ?_, ?_⟩
    · simp only [popBack, htail, hget]
      rw [if_pos hrefzero]
    · have hdsstay : ∀ (i : Nat) (p : Addr × α), ds[i]? = some p → p.1 ≠ q.1 := by
        intro i p hp he
        have : p.1 ∈ chainKeys ds :=
          keyAt_mem_chainKeys (by simp [keyAt, hp] : keyAt ds i = some p.1)
        exact hq1ds (he ▸ this)
      refine ⟨hnodup_parts.1, ?_, ?_, ?_, ?_, ?_, ?_⟩
      · exact hhead
      · show some r.1 = _
        rw [hlast]; rfl
      · intro a
        by_cases ha : a = q.1
        · subst ha
          show ((heap2.free q.1).get q.1).isSome ↔ _
          rw [Heap.get_free_self]
          simp only [Option.isSome_none, Bool.false_eq_true, false_iff]
          exact hq1ds
        · show ((heap2.free q.1).get a).isSome ↔ _
          rw [Heap.get_free_ne _ ha]
          have e1 : (heap2.get a).isSome = (s.heap.get a).isSome := by
            rw [hheap2, Heap.isSome_get_modifyNode, hheap1, Heap.isSome_get_modifyNode]
          rw [e1, h.dom a, hchainKeys]
          rw [List.mem_append, List.mem_singleton]
          constructor
          · rintro (hm | he)
            · exact hm
            · exact absurd he ha
          · exact Or.inl
      · show ((removeA heap2.mem q.1).map Prod.fst).Nodup
        exact (keys_removeA_sublist heap2.mem q.1).nodup hkeys2
      · intro i p hp
        have hpq := hdsstay i p hp
        have hilen : i < ds.length := by
          by_contra hc
          rw [List.getElem?_eq_none (Nat.le_of_not_lt hc)] at hp
          cases hp
        have hpcs : (ds ++ [q])[i]? = some p := by
          rw [List.getElem?_append_left hilen]; exact hp
        have hold := h.nodes i p hpcs
        show (heap2.free q.1).get p.1 = _
        rw [Heap.get_free_ne _ hpq]
        have eprev : prevKey (ds ++ [q]) i = prevKey ds i := by
          cases i with
          | zero => rfl
          | succ i' =>
            show keyAt (ds ++ [q]) i' = keyAt ds i'
            exact keyAt_append_lt (by omega) _
        rcases Nat.lt_or_ge i j with hij | hij
        · have hpr : p.1 ≠ r.1 := by
            intro he
            have h1 : keyAt (ds ++ [q]) i = some r.1 := by simp [keyAt, hpcs, he]
            have := keyAt_inj h.nodup h1 hkeyj
            omega
          rw [hget2other p.1 hpq hpr, hold]
          have enext : keyAt (ds ++ [q]) (i + 1) = keyAt ds (i + 1) :=
            keyAt_append_lt (by omega) _
          rw [enext, eprev]
        · have hieq : i = j := by omega
          subst hieq
          have hpr : p = r := by
            rw [hrcs] at hpcs
            exact (Option.some_inj.mp hpcs).symm
          subst hpr
          rw [hget2r]
          have enext : keyAt ds (i + 1) = none := by
            refine (Option.map_eq_none').mpr (List.getElem?_eq_none ?_)
            omega
          rw [enext, eprev]
      · intro a ha
        show a < s.heap.fresh
        refine h.freshB a ?_
        rw [hchainKeys]
        exact List.mem_append_left _ ha

theorem keyAt_congr {α : Type} {cs cs' : List (Addr × α)}
    (h : chainKeys cs = chainKeys cs') (i : Nat) : keyAt cs i = keyAt cs' i := by
  rw [keyAt_eq_getElem?, keyAt_eq_getElem?, h]

theorem prevKey_congr {α : Type} {cs cs' : List (Addr × α)}
    (h : chainKeys cs = chainKeys cs') (i : Nat) : prevKey cs i = prevKey cs' i := by
  cases i with
  | zero => rfl
  | succ j => exact keyAt_congr h j

theorem peekFront_inv {α : Type} {s : St α} {cs : List (Addr × α)} (h : Inv s cs) :
    peekFront s = (cs.head?).map Prod.snd := by
  cases cs with
  | nil =>
    have hhead : s.list.head = none := by simpa [keyAt] using h.headOk
    simp [peekFront, hhead]
  | cons q rest =>
    have hhead : s.list.head = some q.1 := by simpa [keyAt] using h.headOk
    have hn0 := h.nodes 0 q (by simp)
    simp [peekFront, hhead, hn0]

theorem peekBack_inv {α : Type} {s : St α} {cs : List (Addr × α)} (h : Inv s cs) :
    peekBack s = (cs.getLast?).map Prod.snd := by
  rcases hlast : cs.getLast? with _ | r
  · have hnil : cs = [] := List.getLast?_eq_none_iff.mp hlast
    subst hnil
    have htail : s.list.tail = none := by simpa using h.tailOk
    simp [peekBack, htail]
  · have htail : s.list.tail = some r.1 := by rw [h.tailOk, hlast]; rfl
    have hpos : 0 < cs.length := by
      rcases cs with _ | ⟨c0, ctail⟩
      · cases hlast
      · simp
    obtain ⟨j, hlen⟩ : ∃ j, cs.length = j + 1 := ⟨cs.length - 1, by omega⟩
    have hrj : cs[j]? = some r := by
      have h1 := List.getLast?_eq_getElem? cs
      rw [hlast, hlen] at h1
      simpa using h1.symm
    have hnr := h.nodes j r hrj
    simp [peekBack, htail, hnr]

/-- Writing through `peek_front_mut` on a non-empty list: replaces the
front element, keeps all links and all other elements. -/
theorem peekFrontMutWrite_inv {α : Type} {s : St α} {q : Addr × α} {rest : List (Addr × α)}
    (h : Inv s (q :: rest)) (v : α) :
    peekFrontMutWrite s v =
      some ⟨s.list, s.heap.modifyNode q.1 (fun n => { n with elem := v })⟩ ∧
    Inv (⟨s.list, s.heap.modifyNode q.1 (fun n => { n with elem := v })⟩ : St α)
      ((q.1, v) :: rest) := by
  have hhead : s.list.head = some q.1 := by simpa [keyAt] using h.headOk
  have hchk : chainKeys ((q.1, v) :: rest) = chainKeys (q :: rest) := by simp [chainKeys]
  have hn0 := h.nodes 0 q (by simp)
  set hm := s.heap.modifyNode q.1 (fun n => { n with elem := v }) with hhm
  have hq1rest : q.1 ∉ chainKeys rest := by
    have := h.nodup
    rw [show chainKeys (q :: rest) = q.1 :: chainKeys rest from rfl] at this
    exact (List.nodup_cons.mp this).1
  refine ⟨by simp [peekFrontMutWrite, hhead], ?_, ?_, ?_, ?_, ?_, ?_, ?_⟩
  · rw [hchk]; exact h.nodup
  · rw [hhead]
    simp [keyAt]
  · rw [h.tailOk]
    rcases rest with _ | ⟨r0, rtail⟩
    · rfl
    · rw [List.getLast?_cons_cons, List.getLast?_cons_cons]
  · intro a
    have e1 : (hm.get a).isSome = (s.heap.get a).isSome := by
      rw [hhm]; exact Heap.isSome_get_modifyNode _ _ _ _
    rw [e1, h.dom a, hchk]
  · rw [hhm]
    show ((modifyA s.heap.mem q.1 _).map Prod.fst).Nodup
    rw [keys_modifyA]; exact h.heapKeys
  · intro i p hp
    cases i with
    | zero =>
      obtain rfl : (q.1, v) = p := by simpa using hp
      show hm.get q.1 = _
      rw [hhm, Heap.get_modifyNode_self hn0]
      have e2 := keyAt_congr hchk 1
      have e3 := prevKey_congr hchk 0
      rw [← e2, ← e3]
    | succ j =>
      have hp' : (q :: rest)[j + 1]? = some p := by simpa using hp
      have hold := h.nodes (j + 1) p hp'
      have hpj : rest[j]? = some p := by simpa using hp
      have hpq : p.1 ≠ q.1 := by
        intro he
        refine hq1rest ?_
        rw [← he]
        exact keyAt_mem_chainKeys (by simp [keyAt, hpj] : keyAt rest j = some p.1)
      show hm.get p.1 = _
      rw [hhm, Heap.get_modifyNode_ne _ hpq, hold]
      have e2 := keyAt_congr hchk (j + 2)
      have e3 := prevKey_congr hchk (j + 1)
      rw [← e2, ← e3]
  · intro a ha
    rw [hchk] at ha
    exact h.freshB a ha

/-- Writing through `peek_back_mut` on a non-empty list: replaces the
back element, keeps all links and all other elements. -/
theorem peekBackMutWrite_inv {α : Type} {s : St α} {ds : List (Addr × α)} {q : Addr × α}
    (h : Inv s (ds ++ [q])) (v : α) :
    peekBackMutWrite s v =
      some ⟨s.list, s.heap.modifyNode q.1 (fun n => { n with elem := v })⟩ ∧
    Inv (⟨s.list, s.heap.modifyNode q.1 (fun n => { n with elem := v })⟩ : St α)
      (ds ++ [(q.1, v)]) := by
  have htail : s.list.tail = some q.1 := by
    rw [h.tailOk, List.getLast?_concat]; rfl
  have hchk : chainKeys (ds ++ [(q.1, v)]) = chainKeys (ds ++ [q]) := by simp [chainKeys]
  have hchainKeys : chainKeys (ds ++ [q]) = chainKeys ds ++ [q.1] := by simp [chainKeys]
  have hnodup_parts := List.nodup_append.mp (by rw [← hchainKeys]; exact h.nodup)
  have hq1ds : q.1 ∉ chainKeys ds := fun hm =>
    hnodup_parts.2.2 hm (List.mem_singleton.mpr rfl)
  have hnq := h.nodes ds.length q (by rw [← List.getElem?_concat_length ds q])
  set hm := s.heap.modifyNode q.1 (fun n => { n with elem := v }) with hhm
  refine ⟨by simp [peekBackMutWrite, htail], ?_, ?_, ?_, ?_, ?_, ?_, ?_⟩
  · rw [hchk]; exact h.nodup
  · rw [h.headOk]
    exact (keyAt_congr hchk 0).symm
  · rw [htail, List.getLast?_concat]
    rfl
  · intro a
    have e1 : (hm.get a).isSome = (s.heap.get a).isSome := by
      rw [hhm]; exact Heap.isSome_get_modifyNode _ _ _ _
    rw [e1, h.dom a, hchk]
  · rw [hhm]
    show ((modifyA s.heap.mem q.1 _).map Prod.fst).Nodup
    rw [keys_modifyA]; exact h.heapKeys
  · intro i p hp
    have hilen : i < ds.length + 1 := by
      by_contra hc
      rw [List.getElem?_eq_none (by simp; omega)] at hp
      cases hp
    rcases Nat.lt_or_ge i ds.length with hik | hik
    · have hpds : ds[i]? = some p := by
        rw [List.getElem?_append_left hik] at hp
        exact hp
      have hpcs : (ds ++ [q])[i]? = some p := by
        rw [List.getElem?_append_left hik]; exact hpds
      have hold := h.nodes i p hpcs
      have hpq : p.1 ≠ q.1 := by
        intro he
        refine hq1ds ?_
        rw [← he]
        exact keyAt_mem_chainKeys (by simp [keyAt, hpds] : keyAt ds i = some p.1)
      show hm.get p.1 = _
      rw [hhm, Heap.get_modifyNode_ne _ hpq, hold]
      have e2 := keyAt_congr hchk (i + 1)
      have e3 := prevKey_congr hchk i
      rw [← e2, ← e3]
    · have hieq : i = ds.length := by omega
      subst hieq
      have hpq : p = (q.1, v) := by
        have h1 : (ds ++ [(q.1, v)])[ds.length]? = some (q.1, v) :=
          List.getElem?_concat_length ds _
        rw [hp] at h1
        exact Option.some_inj.mp h1
      subst hpq
      show hm.get q.1 = _
      rw [hhm, Heap.get_modifyNode_self hnq]
      have e2 := keyAt_congr hchk (ds.length + 1)
      have e3 := prevKey_congr hchk ds.length
      rw [← e2, ← e3]
  · intro a ha
    rw [hchk] at ha
    exact h.freshB a ha

theorem peekFrontMutWrite_nil {α : Type} {s : St α} (h : Inv s []) (v : α) :
    peekFrontMutWrite s v = none := by
  have hhead : s.list.head = none := by simpa [keyAt] using h.headOk
  simp [peekFrontMutWrite, hhead]

theorem peekBackMutWrite_nil {α : Type} {s : St α} (h : Inv s []) (v : α) :
    peekBackMutWrite s v = none := by
  have htail : s.list.tail = none := by simpa using h.tailOk
  simp [peekBackMutWrite, htail]

/-! ## Abstract-sequence level specifications -/

theorem pushFront_ok {α : Type} {s : St α} {l : List α} (h : ListOk s l) (x : α) :
    ListOk (pushFront s x) (x :: l) := by
  obtain ⟨cs, hinv, hmap⟩ := h
  exact ⟨(s.heap.fresh, x) :: cs, pushFront_inv hinv x, by simp [hmap]⟩

theorem pushBack_ok {α : Type} {s : St α} {l : List α} (h : ListOk s l) (x : α) :
    ListOk (pushBack s x) (l ++ [x]) := by
  obtain ⟨cs, hinv, hmap⟩ := h
  exact ⟨cs ++ [(s.heap.fresh, x)], pushBack_inv hinv x, by simp [hmap]⟩

theorem popFront_ok {α : Type} {s : St α} {l : List α} (h : ListOk s l) :
    ∃ s' : St α, popFront s = some (l.head?, s') ∧ ListOk s' l.tail := by
  obtain ⟨cs, hinv, hmap⟩ := h
  cases cs with
  | nil =>
    obtain rfl : l = [] := hmap.symm
    exact ⟨s, popFront_nil hinv, [], hinv, rfl⟩
  | cons q rest =>
    obtain rfl : l = q.2 :: rest.map Prod.snd := hmap.symm
    obtain ⟨s', heq, hinv'⟩ := popFront_inv_cons hinv
    exact ⟨s', heq, rest, hinv', rfl⟩

theorem popBack_ok {α : Type} {s : St α} {l : List α} (h : ListOk s l) :
    ∃ s' : St α, popBack s = some (l.getLast?, s') ∧ ListOk s' l.dropLast := by
  obtain ⟨cs, hinv, hmap⟩ := h
  rcases hlast : cs.getLast? with _ | q
  · have hnil : cs = [] := List.getLast?_eq_none_iff.mp hlast
    subst hnil
    obtain rfl : l = [] := hmap.symm
    exact ⟨s, popBack_nil hinv, [], hinv, rfl⟩
  · have hsplit : cs.dropLast ++ [q] = cs := List.dropLast_append_getLast? q hlast
    rw [← hsplit] at hinv hmap
    obtain ⟨s', heq, hinv'⟩ := popBack_inv_concat hinv
    subst hmap
    refine ⟨s', ?_, cs.dropLast, hinv', ?_⟩
    · rw [heq]
      rw [show (cs.dropLast ++ [q]).map Prod.snd = cs.dropLast.map Prod.snd ++ [q.2] by simp]
      rw [List.getLast?_concat]
    · rw [show (cs.dropLast ++ [q]).map Prod.snd = cs.dropLast.map Prod.snd ++ [q.2] by simp]
      rw [List.dropLast_concat]

theorem peekFront_ok {α : Type} {s : St α} {l : List α} (h : ListOk s l) :
    peekFront s = l.head? := by
  obtain ⟨cs, hinv, hmap⟩ := h
  rw [peekFront_inv hinv, ← hmap, List.head?_map]

theorem peekBack_ok {α : Type} {s : St α} {l : List α} (h : ListOk s l) :
    peekBack s = l.getLast? := by
  obtain ⟨cs, hinv, hmap⟩ := h
  rw [peekBack_inv hinv, ← hmap, List.getLast?_map]

theorem peekFrontMutWrite_ok {α : Type} {s : St α} {l : List α} (h : ListOk s l)
    (hne : l ≠ []) (v : α) :
    ∃ s' : St α, peekFrontMutWrite s v = some s' ∧ ListOk s' (v :: l.tail) := by
  obtain ⟨cs, hinv, hmap⟩ := h
  cases cs with
  | nil => exact absurd hmap.symm hne
  | cons q rest =>
    obtain ⟨heq, hinv'⟩ := peekFrontMutWrite_inv hinv v
    refine ⟨_, heq, (q.1, v) :: rest, hinv', ?_⟩
    rw [← hmap]
    rfl

theorem peekBackMutWrite_ok {α : Type} {s : St α} {l : List α} (h : ListOk s l)
    (hne : l ≠ []) (v : α) :
    ∃ s' : St α, peekBackMutWrite s v = some s' ∧ ListOk s' (l.dropLast ++ [v]) := by
  obtain ⟨cs, hinv, hmap⟩ := h
  rcases hlast : cs.getLast? with _ | q
  · have hnil : cs = [] := List.getLast?_eq_none_iff.mp hlast
    subst hnil
    exact absurd hmap.symm hne
  · have hsplit : cs.dropLast ++ [q] = cs := List.dropLast_append_getLast? q hlast
    rw [← hsplit] at hinv hmap
    obtain ⟨heq, hinv'⟩ := peekBackMutWrite_inv hinv v
    subst hmap
    refine ⟨_, heq, cs.dropLast ++ [(q.1, v)], hinv', ?_⟩
    rw [show (cs.dropLast ++ [q]).map Prod.snd = cs.dropLast.map Prod.snd ++ [q.2] by simp]
    rw [List.dropLast_concat]
    simp

theorem peekFrontMutWrite_empty {α : Type} {s : St α} (h : ListOk s []) (v : α) :
    peekFrontMutWrite s v = none := by
  obtain ⟨cs, hinv, hmap⟩ := h
  cases cs with
  | nil => exact peekFrontMutWrite_nil hinv v
  | cons q rest => cases hmap

theorem peekBackMutWrite_empty {α : Type} {s : St α} (h : ListOk s []) (v : α) :
    peekBackMutWrite s v = none := by
  obtain ⟨cs, hinv, hmap⟩ := h
  cases cs with
  | nil => exact peekBackMutWrite_nil hinv v
  | cons q rest => cases hmap

/-! ## Reachability and the structural invariant of the spec -/

/-- States reachable from `List::new()` by the public mutating
operations (peeks are pure in this model; writing through a mutable peek
is the `writeF`/`writeB` step). -/
inductive Reachable {α : Type} : St α → Prop where
  | base : Reachable stNew
  | pushF {s : St α} (x : α) : Reachable s → Reachable (pushFront s x)
  | pushB {s : St α} (x : α) : Reachable s → Reachable (pushBack s x)
  | popF {s s' : St α} {r : Option α} : Reachable s → popFront s = some (r, s') →
      Reachable s'
  | popB {s s' : St α} {r : Option α} : Reachable s → popBack s = some (r, s') →
      Reachable s'
  | writeF {s s' : St α} {v : α} : Reachable s → peekFrontMutWrite s v = some s' →
      Reachable s'
  | writeB {s s' : St α} {v : α} : Reachable s → peekBackMutWrite s v = some s' →
      Reachable s'

theorem reachable_listOk {α : Type} {s : St α} (h : Reachable s) : ∃ l, ListOk s l := by
  induction h with
  | base => exact ⟨[], listOk_stNew⟩
  | pushF x _ ih =>
    obtain ⟨l, hl⟩ := ih
    exact ⟨x :: l, pushFront_ok hl x⟩
  | pushB x _ ih =>
    obtain ⟨l, hl⟩ := ih
    exact ⟨l ++ [x], pushBack_ok hl x⟩
  | popF _ hstep ih =>
    obtain ⟨l, hl⟩ := ih
    obtain ⟨s'', heq, hok⟩ := popFront_ok hl
    rw [hstep] at heq
    obtain ⟨-, rfl⟩ := Prod.mk.injEq .. ▸ (Option.some_inj.mp heq)
    exact ⟨l.tail, hok⟩
  | popB _ hstep ih =>
    obtain ⟨l, hl⟩ := ih
    obtain ⟨s'', heq, hok⟩ := popBack_ok hl
    rw [hstep] at heq
    obtain ⟨-, rfl⟩ := Prod.mk.injEq .. ▸ (Option.some_inj.mp heq)
    exact ⟨l.dropLast, hok⟩
  | writeF _ hstep ih =>
    obtain ⟨l, hl⟩ := ih
    rcases hl0 : l with _ | ⟨a, l'⟩
    · rw [hl0] at hl
      rw [peekFrontMutWrite_empty hl _] at hstep
      cases hstep
    · rw [hl0] at hl
      obtain ⟨s'', heq, hok⟩ := peekFrontMutWrite_ok hl (by simp) _
      rw [hstep] at heq
      obtain rfl := Option.some_inj.mp heq
      exact ⟨_, hok⟩
  | writeB _ hstep ih =>
    obtain ⟨l, hl⟩ := ih
    rcases hl0 : l with _ | ⟨a, l'⟩
    · rw [hl0] at hl
      rw [peekBackMutWrite_empty hl _] at hstep
      cases hstep
    · rw [hl0] at hl
      obtain ⟨s'', heq, hok⟩ := peekBackMutWrite_ok hl (by simp) _
      rw [hstep] at heq
      obtain rfl := Option.some_inj.mp heq
      exact ⟨_, hok⟩

/-- The structural invariants stated by the specification:
`head`/`tail` empty exactly on the empty list, the head node has no
backward link, the tail node has no forward link, and adjacent links
pair up symmetrically in both directions. -/
def StructInv {α : Type} (s : St α) : Prop :=
  (s.list.head = none ↔ s.list.tail = none) ∧
  (s.list.head = none ↔ s.heap.mem = []) ∧
  (∀ a n, s.list.head = some a → s.heap.get a = some n → n.prev = none) ∧
  (∀ a n, s.list.tail = some a → s.heap.get a = some n → n.next = none) ∧
  (∀ a b na nb, s.heap.get a = some na → na.next = some b → s.heap.get b = some nb →
      nb.prev = some a) ∧
  (∀ a b na nb, s.heap.get a = some na → na.prev = some b → s.heap.get b = some nb →
      nb.next = some a)

theorem mem_eq_nil_of_all_none {α : Type} {ps : List (Addr × Node α)}
    (h : ∀ a, lookupA ps a = none) : ps = [] := by
  cases ps with
  | nil => rfl
  | cons p ps =>
    have := h p.1
    simp [lookupA] at this

theorem structInv_of_inv {α : Type} {s : St α} {cs : List (Addr × α)} (h : Inv s cs) :
    StructInv s := by
  have hhn : s.list.head = none ↔ cs = [] := by
    rw [h.headOk]
    cases cs with
    | nil => simp [keyAt]
    | cons q rest => simp [keyAt]
  have htn : s.list.tail = none ↔ cs = [] := by
    rw [h.tailOk]
    cases hcs : cs.getLast? with
    | none => simp [List.getLast?_eq_none_iff.mp hcs]
    | some q =>
      simp only [Option.map_some']
      constructor
      · intro he; cases he
      · intro he
        rw [he] at hcs
        cases hcs
  refine ⟨hhn.trans htn.symm, hhn.trans ?_, ?_, ?_, ?_, ?_⟩
  · constructor
    · intro he
      refine mem_eq_nil_of_all_none fun a => ?_
      have := (h.dom a).not
      rw [Option.not_isSome_iff_eq_none] at this
      exact this.mpr (by simp [he, chainKeys])
    · intro he
      cases hcs : cs with
      | nil => rfl
      | cons q rest =>
        have : (s.heap.get q.1).isSome := by
          rw [h.dom q.1]
          simp [hcs, chainKeys]
        rw [show s.heap.get q.1 = lookupA s.heap.mem q.1 from rfl, he] at this
        simp [lookupA] at this
  · intro a n hhead hget
    cases cs with
    | nil => rw [h.headOk] at hhead; simp [keyAt] at hhead
    | cons q rest =>
      have hq : q.1 = a := by
        rw [h.headOk] at hhead
        simpa [keyAt] using hhead
      have hn0 := h.nodes 0 q (by simp)
      rw [hq, hget] at hn0
      rw [Option.some_inj.mp hn0]
      rfl
  · intro a n htail hget
    rcases hlast : cs.getLast? with _ | q
    · rw [h.tailOk, hlast] at htail; cases htail
    · have hq : q.1 = a := by
        rw [h.tailOk, hlast] at htail
        simpa using htail
      have hpos : 0 < cs.length := by
        rcases cs with _ | ⟨c0, ctail⟩
        · cases hlast
        · simp
      obtain ⟨j, hlen⟩ : ∃ j, cs.length = j + 1 := ⟨cs.length - 1, by omega⟩
      have hrj : cs[j]? = some q := by
        have h1 := List.getLast?_eq_getElem? cs
        rw [hlast, hlen] at h1
        simpa using h1.symm
      have hnj := h.nodes j q hrj
      rw [hq, hget] at hnj
      rw [Option.some_inj.mp hnj]
      show keyAt cs (j + 1) = none
      refine (Option.map_eq_none').mpr (List.getElem?_eq_none ?_)
      omega
  · intro a b na nb hga hnext hgb
    obtain ⟨i, p, hp, hpa, rfl⟩ := addr_index h hga
    have hb : keyAt cs (i + 1) = some b := hnext
    obtain ⟨p', hp', hp'b⟩ : ∃ p', cs[i + 1]? = some p' ∧ p'.1 = b := by
      unfold keyAt at hb
      cases hcp : cs[i + 1]? with
      | none => rw [hcp] at hb; cases hb
      | some p' => rw [hcp] at hb; exact ⟨p', rfl, by simpa using hb⟩
    have hnb := h.nodes (i + 1) p' hp'
    rw [hp'b, hgb] at hnb
    rw [Option.some_inj.mp hnb]
    show prevKey cs (i + 1) = some a
    show keyAt cs i = some a
    simp [keyAt, hp, hpa]
  · intro a b na nb hga hprev hgb
    obtain ⟨i, p, hp, hpa, rfl⟩ := addr_index h hga
    cases i with
    | zero => cases hprev
    | succ j =>
      have hb : keyAt cs j = some b := hprev
      obtain ⟨p', hp', hp'b⟩ : ∃ p', cs[j]? = some p' ∧ p'.1 = b := by
        unfold keyAt at hb
        cases hcp : cs[j]? with
        | none => rw [hcp] at hb; cases hb
        | some p' => rw [hcp] at hb; exact ⟨p', rfl, by simpa using hb⟩
      have hnb := h.nodes j p' hp'
      rw [hp'b, hgb] at hnb
      rw [Option.some_inj.mp hnb]
      show keyAt cs (j + 1) = some a
      simp [keyAt, hp, hpa]

/-! ## Traces of operations against the reference deque -/

/-- A public mutating operation of the deque interface. -/
inductive Op (α : Type) where
  | pushF (x : α)
  | pushB (x : α)
  | popF
  | popB
deriving DecidableEq, Repr

/-- Run a trace of operations on the implementation, collecting every
pop result; `none` if any pop hits a fatal outcome. -/
def runImpl {α : Type} : List (Op α) → St α → Option (List (Option α) × St α)
  | [], s => some ([], s)
  | Op.pushF x :: ops, s => runImpl ops (pushFront s x)
  | Op.pushB x :: ops, s => runImpl ops (pushBack s x)
  | Op.popF :: ops, s =>
      (popFront s).bind fun p =>
        (runImpl ops p.2).map fun o => (p.1 :: o.1, o.2)
  | Op.popB :: ops, s =>
      (popBack s).bind fun p =>
        (runImpl ops p.2).map fun o => (p.1 :: o.1, o.2)

/-- The reference double-ended queue: a pure sequence where `push_front`
prepends, `push_back` appends, `pop_front` removes the first element and
`pop_back` the last. -/
def runDeque {α : Type} : List (Op α) → List α → List (Option α) × List α
  | [], l => ([], l)
  | Op.pushF x :: ops, l => runDeque ops (x :: l)
  | Op.pushB x :: ops, l => runDeque ops (l ++ [x])
  | Op.popF :: ops, l =>
      ((runDeque ops l.tail).1.cons l.head?, (runDeque ops l.tail).2)
  | Op.popB :: ops, l =>
      ((runDeque ops l.dropLast).1.cons l.getLast?, (runDeque ops l.dropLast).2)

theorem runImpl_refines {α : Type} (ops : List (Op α)) :
    ∀ {s : St α} {l : List α}, ListOk s l →
      ∃ s', runImpl ops s = some ((runDeque ops l).1, s') ∧ ListOk s' (runDeque ops l).2 := by
  induction ops with
  | nil => exact fun h => ⟨_, rfl, h⟩
  | cons op ops ih =>
    intro s l h
    cases op with
    | pushF x => exact ih (pushFront_ok h x)
    | pushB x => exact ih (pushBack_ok h x)
    | popF =>
      obtain ⟨s₁, heq, hok⟩ := popFront_ok h
      obtain ⟨s', heq', hok'⟩ := ih hok
      exact ⟨s', by simp [runImpl, heq, heq', runDeque], hok'⟩
    | popB =>
      obtain ⟨s₁, heq, hok⟩ := popBack_ok h
      obtain ⟨s', heq', hok'⟩ := ih hok
      exact ⟨s', by simp [runImpl, heq, heq', runDeque], hok'⟩

/-! ## The consuming bidirectional iterator -/

/-- Embeds `struct IntoIter<T>(List<T>)`: the iterator owns the list. -/
structure IntoIter (α : Type) where
  inner : St α
deriving DecidableEq, Repr

/-- `List::into_iter`. -/
def intoIter {α : Type} (s : St α) : IntoIter α := ⟨s⟩

/-- `Iterator::next`: exactly `self.0.pop_front()`. -/
def IntoIter.next {α : Type} (it : IntoIter α) : Option (Option α × IntoIter α) :=
  (popFront it.inner).map fun p => (p.1, ⟨p.2⟩)

/-- `DoubleEndedIterator::next_back`: exactly `self.0.pop_back()`. -/
def IntoIter.nextBack {α : Type} (it : IntoIter α) : Option (Option α × IntoIter α) :=
  (popBack it.inner).map fun p => (p.1, ⟨p.2⟩)

/-- Run the iterator under a schedule of directions
(`true` = `next`, `false` = `next_back`), collecting the yields. -/
def runIter {α : Type} : List Bool → IntoIter α → Option (List (Option α) × IntoIter α)
  | [], it => some ([], it)
  | d :: ds, it =>
      (if d then it.next else it.nextBack).bind fun p =>
        (runIter ds p.2).map fun o => (p.1 :: o.1, o.2)

/-- The pure counterpart of `runIter` over the element sequence. -/
def runPureIter {α : Type} : List Bool → List α → List (Option α) × List α
  | [], l => ([], l)
  | d :: ds, l =>
      let r := if d then l.head? else l.getLast?
      let l' := if d then l.tail else l.dropLast
      ((runPureIter ds l').1.cons r, (runPureIter ds l').2)

theorem runIter_refines {α : Type} (ds : List Bool) :
    ∀ {s : St α} {l : List α}, ListOk s l →
      ∃ it', runIter ds ⟨s⟩ = some ((runPureIter ds l).1, it') ∧
        ListOk it'.inner (runPureIter ds l).2 := by
  induction ds with
  | nil => exact fun h => ⟨_, rfl, h⟩
  | cons d ds ih =>
    intro s l h
    cases d with
    | true =>
      obtain ⟨s₁, heq, hok⟩ := popFront_ok h
      obtain ⟨it', heq', hok'⟩ := ih hok
      refine ⟨it', ?_, hok'⟩
      simp [runIter, IntoIter.next, heq, heq', runPureIter]
    | false =>
      obtain ⟨s₁, heq, hok⟩ := popBack_ok h
      obtain ⟨it', heq', hok'⟩ := ih hok
      refine ⟨it', ?_, hok'⟩
      simp [runIter, IntoIter.nextBack, heq, heq', runPureIter]

/-- Elements yielded so far plus elements still in the deque are a
permutation of the original sequence: nothing is duplicated or lost. -/
theorem runPureIter_perm {α : Type} (ds : List Bool) :
    ∀ l : List α,
      ((runPureIter ds l).1.filterMap id ++ (runPureIter ds l).2).Perm l := by
  induction ds with
  | nil => intro l; simp [runPureIter]
  | cons d ds ih =>
    intro l
    cases d with
    | true =>
      cases l with
      | nil => simpa [runPureIter] using ih []
      | cons a t =>
        have := ih t
        simpa [runPureIter] using List.Perm.cons a this
    | false =>
      rcases hlast : l.getLast? with _ | a
      · have hnil : l = [] := List.getLast?_eq_none_iff.mp hlast
        subst hnil
        simpa [runPureIter] using ih []
      · have hsplit : l.dropLast ++ [a] = l := List.dropLast_append_getLast? a hlast
        have hperm := ih l.dropLast
        have h1 : (runPureIter (false :: ds) l).1.filterMap id ++ (runPureIter (false :: ds) l).2
            = a :: ((runPureIter ds l.dropLast).1.filterMap id ++
                (runPureIter ds l.dropLast).2) := by
          simp [runPureIter, hlast]
        rw [h1]
        refine (List.Perm.cons a hperm).trans ?_
        refine ((List.perm_append_singleton a l.dropLast).symm).trans ?_
        rw [hsplit]

/-- Once the deque is empty every further call yields the absence
marker, in either direction, forever. -/
theorem runPureIter_empty {α : Type} (ds : List Bool) :
    (runPureIter ds ([] : List α)).1 = List.replicate ds.length none ∧
    (runPureIter ds ([] : List α)).2 = [] := by
  induction ds with
  | nil => exact ⟨rfl, rfl⟩
  | cons d ds ih =>
    cases d <;> simp [runPureIter, ih.1, ih.2, List.replicate_succ]

/-! ## Teardown: `impl Drop for List` -/

/-- The `Drop` implementation, `while self.pop_front().is_some() {}`,
with an explicit fuel bound: returns the number of `pop_front` calls
made and the final state, `none` on a fatal pop or fuel exhaustion. -/
def dropList {α : Type} : Nat → St α → Option (Nat × St α)
  | 0, _ => none
  | fuel + 1, s =>
      match popFront s with
      | none => none
      | some (none, s') => some (1, s')
      | some (some _, s') => (dropList fuel s').map fun p => (p.1 + 1, p.2)

theorem dropList_succ {α : Type} (fuel : Nat) (s : St α) :
    dropList (fuel + 1) s =
      match popFront s with
      | none => none
      | some (none, s') => some (1, s')
      | some (some _, s') => (dropList fuel s').map fun p => (p.1 + 1, p.2) := rfl

theorem dropList_ok {α : Type} {l : List α} :
    ∀ {s : St α}, ListOk s l →
      ∃ s', dropList (l.length + 1) s = some (l.length + 1, s') ∧ ListOk s' [] := by
  induction l with
  | nil =>
    intro s h
    obtain ⟨cs, hinv, hmap⟩ := h
    obtain rfl : cs = [] := by
      cases cs with
      | nil => rfl
      | cons q rest => cases hmap
    refine ⟨s, ?_, [], hinv, rfl⟩
    rw [show ([] : List α).length + 1 = 0 + 1 from rfl, dropList_succ, popFront_nil hinv]
  | cons a t ih =>
    intro s h
    obtain ⟨s₁, heq, hok⟩ := popFront_ok h
    obtain ⟨s', heq', hok'⟩ := ih hok
    refine ⟨s', ?_, hok'⟩
    have heq2 : popFront s = some (some a, s₁) := heq
    show dropList ((t.length + 1) + 1) s = some ((t.length + 1) + 1, s')
    rw [dropList_succ, heq2]
    show (dropList (t.length + 1) s₁).map (fun p => (p.1 + 1, p.2)) =
      some ((t.length + 1) + 1, s')
    rw [heq']
    rfl

/-- An empty abstract list means the heap holds no nodes at all: every
node has been reclaimed. -/
theorem listOk_nil_heap {α : Type} {s : St α} (h : ListOk s []) :
    s.heap.mem = [] ∧ s.list.head = none ∧ s.list.tail = none := by
  obtain ⟨cs, hinv, hmap⟩ := h
  obtain rfl : cs = [] := by
    cases cs with
    | nil => rfl
    | cons q rest => cases hmap
  refine ⟨?_, by simpa [keyAt] using hinv.headOk, by simpa using hinv.tailOk⟩
  refine mem_eq_nil_of_all_none fun a => ?_
  have := (hinv.dom a).not
  rw [Option.not_isSome_iff_eq_none] at this
  exact this.mpr (by simp [chainKeys])

/-! ## The runtime-checked borrow cell -/

/-- Modelled from the spec: the dynamic borrow state of an element cell
(`RefCell`, standard-library code not part of this repository's
sources): the number of outstanding read-only borrow views and of
outstanding read-write borrow views. -/
structure BorrowFlag where
  reads : Nat
  writes : Nat
deriving DecidableEq, Repr

/-- Modelled from the spec: a fresh cell has no outstanding borrows. -/
def borrowNew : BorrowFlag := ⟨0, 0⟩

/-- Modelled from the spec: acquiring a read-only borrow view
(`borrow()`, as the peeks do) succeeds exactly when no read-write view
is outstanding; a conflicting request is fatal (`none`), immediately at
the point of the request. -/
def tryBorrow (b : BorrowFlag) : Option BorrowFlag :=
  if b.writes = 0 then some ⟨b.reads + 1, b.writes⟩ else none

/-- Modelled from the spec: acquiring a read-write borrow view
(`borrow_mut()`, as the pops and mutable peeks do) succeeds exactly when
no view of either kind is outstanding; a conflicting request is fatal
(`none`), immediately at the point of the request. -/
def tryBorrowMut (b : BorrowFlag) : Option BorrowFlag :=
  if b.reads = 0 ∧ b.writes = 0 then some ⟨b.reads, b.writes + 1⟩ else none

/-- Modelled from the spec: a caller action on one cell's borrow state —
acquiring a view of either kind, or letting one go out of scope. -/
inductive BorrowOp where
  | acquireRead
  | acquireWrite
  | releaseRead
  | releaseWrite
deriving DecidableEq, Repr

/-- Modelled from the spec: one step of the borrow discipline; releasing
a view that is not held cannot happen (a view is a value the caller
holds), modelled as `none`. -/
def borrowStep (b : BorrowFlag) : BorrowOp → Option BorrowFlag
  | BorrowOp.acquireRead => tryBorrow b
  | BorrowOp.acquireWrite => tryBorrowMut b
  | BorrowOp.releaseRead => if 0 < b.reads then some ⟨b.reads - 1, b.writes⟩ else none
  | BorrowOp.releaseWrite => if 0 < b.writes then some ⟨b.reads, b.writes - 1⟩ else none

/-- Modelled from the spec: a sequence of successful borrow actions. -/
def runBorrow : List BorrowOp → BorrowFlag → Option BorrowFlag
  | [], b => some b
  | op :: ops, b => (borrowStep b op).bind (runBorrow ops)

theorem borrowStep_ok {b b' : BorrowFlag} {op : BorrowOp}
    (h : (b.reads = 0 ∨ b.writes = 0) ∧ b.writes ≤ 1)
    (hstep : borrowStep b op = some b') :
    (b'.reads = 0 ∨ b'.writes = 0) ∧ b'.writes ≤ 1 := by
  cases op with
  | acquireRead =>
    unfold borrowStep tryBorrow at hstep
    by_cases hw : b.writes = 0
    · rw [if_pos hw] at hstep
      obtain rfl := Option.some_inj.mp hstep
      exact ⟨Or.inr hw, by simp [hw]⟩
    · rw [if_neg hw] at hstep; cases hstep
  | acquireWrite =>
    unfold borrowStep tryBorrowMut at hstep
    by_cases hc : b.reads = 0 ∧ b.writes = 0
    · rw [if_pos hc] at hstep
      obtain rfl := Option.some_inj.mp hstep
      exact ⟨Or.inl hc.1, by simp [hc.2]⟩
    · rw [if_neg hc] at hstep; cases hstep
  | releaseRead =>
    unfold borrowStep at hstep
    by_cases hr : 0 < b.reads
    · rw [if_pos hr] at hstep
      obtain rfl := Option.some_inj.mp hstep
      exact ⟨Or.inr (h.1.resolve_left (by omega)), h.2⟩
    · rw [if_neg hr] at hstep; cases hstep
  | releaseWrite =>
    unfold borrowStep at hstep
    by_cases hw : 0 < b.writes
    · rw [if_pos hw] at hstep
      obtain rfl := Option.some_inj.mp hstep
      refine ⟨Or.inr ?_, ?_⟩
      · show b.writes - 1 = 0
        omega
      · show b.writes - 1 ≤ 1
        omega
    · rw [if_neg hw] at hstep; cases hstep

theorem runBorrow_ok (ops : List BorrowOp) :
    ∀ {b b' : BorrowFlag}, (b.reads = 0 ∨ b.writes = 0) ∧ b.writes ≤ 1 →
      runBorrow ops b = some b' →
      (b'.reads = 0 ∨ b'.writes = 0) ∧ b'.writes ≤ 1 := by
  induction ops with
  | nil =>
    intro b b' h hrun
    obtain rfl := Option.some_inj.mp hrun
    exact h
  | cons op ops ih =>
    intro b b' h hrun
    unfold runBorrow at hrun
    cases hstep : borrowStep b op with
    | none => rw [hstep] at hrun; cases hrun
    | some b₁ =>
      rw [hstep] at hrun
      exact ih (borrowStep_ok h hstep) hrun

/-! ## Concrete states used by the witnesses -/

theorem listOk_one : ListOk (pushFront (stNew : St Int) 1) [1] :=
  pushFront_ok listOk_stNew 1

theorem listOk_oneTwoThree :
    ListOk (pushBack (pushBack (pushBack (stNew : St Int) 1) 2) 3) [1, 2, 3] :=
  pushBack_ok (pushBack_ok (pushBack_ok listOk_stNew 1) 2) 3

/-! ## The claims -/

/-- C1: every finite interleaving of push/pop operations from the empty
list produces exactly the pop results of the reference double-ended
queue, and the concrete scenario
`push_front(1..3), push_back(4), push_back(5), pop_front=3, pop_front=2,
pop_back=5, pop_back=4, push_front(4), push_front(5), push_back(6),
push_back(7), pop_front=5, pop_front=4, pop_back=7, pop_back=6,
pop_front=1, pop_front=absence` holds. -/
theorem claim_C1_deque_refinement :
    (∀ (α : Type) (ops : List (Op α)),
        ∃ s', runImpl ops stNew = some ((runDeque ops []).1, s') ∧
          ListOk s' (runDeque ops []).2) ∧
    (runImpl ([Op.pushF 1, Op.pushF 2, Op.pushF 3, Op.pushB 4, Op.pushB 5,
        Op.popF, Op.popF, Op.popB, Op.popB,
        Op.pushF 4, Op.pushF 5, Op.pushB 6, Op.pushB 7,
        Op.popF, Op.popF, Op.popB, Op.popB, Op.popF, Op.popF] : List (Op Int))
      stNew).map (fun p => p.1) =
      some [some 3, some 2, some 5, some 4, some 5, some 4, some 7, some 6,
        some 1, none] :=
  ⟨fun _ ops => runImpl_refines ops listOk_stNew, by rfl⟩

/-- C2: after any sequence of public operations from the empty list the
structural invariants hold: `head` empty iff `tail` empty iff no nodes,
the head node has an empty `prev`, the tail node an empty `next`, and
adjacent `next`/`prev` links pair up symmetrically. -/
theorem claim_C2_structural_invariants {α : Type} {s : St α} (h : Reachable s) :
    StructInv s := by
  obtain ⟨l, cs, hinv, -⟩ := reachable_listOk h
  exact structInv_of_inv hinv

theorem claim_C2_witness : StructInv (pushFront (stNew : St Int) 1) :=
  claim_C2_structural_invariants (Reachable.pushF 1 Reachable.base)

/-- C3: from every reachable state, `pop_front` and `pop_back` never hit
the fatal branch — at the extraction point the popped node is uniquely
owned and `Rc::try_unwrap(..).ok().unwrap()` succeeds. -/
theorem claim_C3_unwrap_never_fails {α : Type} {s : St α} (h : Reachable s) :
    (popFront s).isSome ∧ (popBack s).isSome := by
  obtain ⟨l, hok⟩ := reachable_listOk h
  obtain ⟨s₁, h1, -⟩ := popFront_ok hok
  obtain ⟨s₂, h2, -⟩ := popBack_ok hok
  exact ⟨by simp [h1], by simp [h2]⟩

theorem claim_C3_witness :
    (popFront (pushFront (stNew : St Int) 1)).isSome ∧
    (popBack (pushFront (stNew : St Int) 1)).isSome :=
  claim_C3_unwrap_never_fails (Reachable.pushF 1 Reachable.base)

/-- C4: on an empty list, `pop_front` and `pop_back` return the absence
marker and leave the state unchanged, and the peeks return the absence
marker; none of this is a fatal outcome. -/
theorem claim_C4_empty_pop {α : Type} {s : St α} (h : ListOk s []) :
    popFront s = some (none, s) ∧ popBack s = some (none, s) ∧
    peekFront s = none ∧ peekBack s = none := by
  obtain ⟨cs, hinv, hmap⟩ := h
  obtain rfl : cs = [] := by
    cases cs with
    | nil => rfl
    | cons q rest => cases hmap
  exact ⟨popFront_nil hinv, popBack_nil hinv,
    by rw [peekFront_inv hinv]; rfl, by rw [peekBack_inv hinv]; rfl⟩

theorem claim_C4_witness :
    popFront (stNew : St Int) = some (none, stNew) ∧
    popBack (stNew : St Int) = some (none, stNew) ∧
    peekFront (stNew : St Int) = none ∧ peekBack (stNew : St Int) = none :=
  claim_C4_empty_pop listOk_stNew

/-- C5: `peek_front`/`peek_back` return the absence marker exactly on
the empty list and otherwise the front-most/back-most element, without
changing the list; after `push_front(a); push_front(b); push_front(c)`,
`peek_front` yields `c` and `peek_back` yields `a`. -/
theorem claim_C5_peek {α : Type} {s : St α} {l : List α} (h : ListOk s l) :
    peekFront s = l.head? ∧ peekBack s = l.getLast? ∧
    (peekFront s = none ↔ l = []) ∧ (peekBack s = none ↔ l = []) ∧
    (∀ (β : Type) (a b c : β),
      peekFront (pushFront (pushFront (pushFront stNew a) b) c) = some c ∧
      peekBack (pushFront (pushFront (pushFront stNew a) b) c) = some a) := by
  refine ⟨peekFront_ok h, peekBack_ok h, ?_, ?_, ?_⟩
  · rw [peekFront_ok h]; exact List.head?_eq_none_iff
  · rw [peekBack_ok h]; exact List.getLast?_eq_none_iff
  · intro β a b c
    have hok : ListOk (pushFront (pushFront (pushFront stNew a) b) c) [c, b, a] :=
      pushFront_ok (pushFront_ok (pushFront_ok listOk_stNew a) b) c
    exact ⟨by rw [peekFront_ok hok]; rfl, by rw [peekBack_ok hok]; rfl⟩

theorem claim_C5_witness :
    peekFront (pushFront (stNew : St Int) 1) = ([1] : List Int).head? ∧
    peekBack (pushFront (stNew : St Int) 1) = ([1] : List Int).getLast? ∧
    (peekFront (pushFront (stNew : St Int) 1) = none ↔ ([1] : List Int) = []) ∧
    (peekBack (pushFront (stNew : St Int) 1) = none ↔ ([1] : List Int) = []) ∧
    (∀ (β : Type) (a b c : β),
      peekFront (pushFront (pushFront (pushFront stNew a) b) c) = some c ∧
      peekBack (pushFront (pushFront (pushFront stNew a) b) c) = some a) :=
  claim_C5_peek listOk_one

/-- C6: writing through the mutable view of `peek_back_mut`
(resp. `peek_front_mut`) replaces exactly the back-most (resp.
front-most) element, observable by a subsequent peek on the same end; in
particular after `push_back(1),push_back(2),push_back(3)` and writing 10
through the back view, peeking the back yields 10. -/
theorem claim_C6_peek_mut_write {α : Type} {s : St α} {l : List α} (h : ListOk s l)
    (hne : l ≠ []) (v : α) :
    (∃ s', peekBackMutWrite s v = some s' ∧ peekBack s' = some v ∧
        ListOk s' (l.dropLast ++ [v])) ∧
    (∃ s', peekFrontMutWrite s v = some s' ∧ peekFront s' = some v ∧
        ListOk s' (v :: l.tail)) ∧
    (∃ s', peekBackMutWrite (pushBack (pushBack (pushBack (stNew : St Int) 1) 2) 3) 10
        = some s' ∧ peekBack s' = some 10) := by
  refine ⟨?_, ?_, ?_⟩
  · obtain ⟨s', heq, hok⟩ := peekBackMutWrite_ok h hne v
    refine ⟨s', heq, ?_, hok⟩
    rw [peekBack_ok hok, List.getLast?_concat]
  · obtain ⟨s', heq, hok⟩ := peekFrontMutWrite_ok h hne v
    refine ⟨s', heq, ?_, hok⟩
    rw [peekFront_ok hok]; rfl
  · have hok123 : ListOk (pushBack (pushBack (pushBack (stNew : St Int) 1) 2) 3)
        [1, 2, 3] := pushBack_ok (pushBack_ok (pushBack_ok listOk_stNew 1) 2) 3
    obtain ⟨s', heq, hok⟩ := peekBackMutWrite_ok hok123 (by simp) 10
    refine ⟨s', heq, ?_⟩
    rw [peekBack_ok hok]; rfl

theorem claim_C6_witness :
    (∃ s', peekBackMutWrite (pushBack (pushBack (pushBack (stNew : St Int) 1) 2) 3) 10
        = some s' ∧ peekBack s' = some 10 ∧
        ListOk s' (([1, 2, 3] : List Int).dropLast ++ [10])) ∧
    (∃ s', peekFrontMutWrite (pushBack (pushBack (pushBack (stNew : St Int) 1) 2) 3) 10
        = some s' ∧ peekFront s' = some 10 ∧
        ListOk s' (10 :: ([1, 2, 3] : List Int).tail)) ∧
    (∃ s', peekBackMutWrite (pushBack (pushBack (pushBack (stNew : St Int) 1) 2) 3) 10
        = some s' ∧ peekBack s' = some 10) :=
  claim_C6_peek_mut_write listOk_oneTwoThree (by simp) 10

/-- C7: the consuming iterator's `next` is `pop_front` and `next_back`
is `pop_back`; under any interleaving of the two ends it matches the
pure deque, every element is produced exactly once across the two ends,
an empty list yields the absence marker forever, and over `[1,2,3]` the
calls `next, next_back, next, next` yield `1, 3, 2, absence`. -/
theorem claim_C7_iterator {α : Type} {s : St α} {l : List α} (h : ListOk s l) :
    (∀ ds : List Bool, ∃ it', runIter ds (intoIter s) =
        some ((runPureIter ds l).1, it') ∧ ListOk it'.inner (runPureIter ds l).2) ∧
    (∀ ds : List Bool,
        ((runPureIter ds l).1.filterMap id ++ (runPureIter ds l).2).Perm l) ∧
    (∀ ds : List Bool,
        (runPureIter ds ([] : List α)).1 = List.replicate ds.length none) ∧
    (runIter [true, false, true, true]
        (intoIter (pushBack (pushBack (pushBack (stNew : St Int) 1) 2) 3))).map
      (fun p => p.1) = some [some 1, some 3, some 2, none] :=
  ⟨fun ds => runIter_refines ds h, fun ds => runPureIter_perm ds l,
    fun ds => (runPureIter_empty ds).1, by rfl⟩

theorem claim_C7_witness :
    (∀ ds : List Bool, ∃ it',
        runIter ds (intoIter (pushBack (pushBack (pushBack (stNew : St Int) 1) 2) 3)) =
        some ((runPureIter ds ([1, 2, 3] : List Int)).1, it') ∧
        ListOk it'.inner (runPureIter ds ([1, 2, 3] : List Int)).2) ∧
    (∀ ds : List Bool,
        ((runPureIter ds ([1, 2, 3] : List Int)).1.filterMap id ++
          (runPureIter ds ([1, 2, 3] : List Int)).2).Perm ([1, 2, 3] : List Int)) ∧
    (∀ ds : List Bool,
        (runPureIter ds ([] : List Int)).1 = List.replicate ds.length none) ∧
    (runIter [true, false, true, true]
        (intoIter (pushBack (pushBack (pushBack (stNew : St Int) 1) 2) 3))).map
      (fun p => p.1) = some [some 1, some 3, some 2, none] :=
  claim_C7_iterator listOk_oneTwoThree

/-- C8: teardown is the loop `while pop_front().is_some() {}`: on a list
of `N` elements it makes exactly `N + 1` `pop_front` calls, terminates,
and leaves head, tail and the heap empty — every node reclaimed
iteratively. -/
theorem claim_C8_teardown {α : Type} {s : St α} {l : List α} (h : ListOk s l) :
    ∃ s', dropList (l.length + 1) s = some (l.length + 1, s') ∧
      s'.list.head = none ∧ s'.list.tail = none ∧ s'.heap.mem = [] := by
  obtain ⟨s', heq, hok⟩ := dropList_ok h
  obtain ⟨hmem, hh, ht⟩ := listOk_nil_heap hok
  exact ⟨s', heq, hh, ht, hmem⟩

theorem claim_C8_witness :
    ∃ s', dropList (([1, 2, 3] : List Int).length + 1)
        (pushBack (pushBack (pushBack (stNew : St Int) 1) 2) 3) =
      some (([1, 2, 3] : List Int).length + 1, s') ∧
      s'.list.head = none ∧ s'.list.tail = none ∧ s'.heap.mem = [] :=
  claim_C8_teardown listOk_oneTwoThree

/-- C9: the element cell's dynamic borrow discipline: any number of
concurrent read views or exactly one write view, never both; a
conflicting acquisition fails fatally at the point of the request. -/
theorem claim_C9_borrow_discipline :
    (∀ (ops : List BorrowOp) (b : BorrowFlag), runBorrow ops borrowNew = some b →
        (b.reads = 0 ∨ b.writes = 0) ∧ b.writes ≤ 1) ∧
    (∀ b : BorrowFlag, tryBorrow b = none ↔ b.writes ≠ 0) ∧
    (∀ b : BorrowFlag, tryBorrowMut b = none ↔ ¬ (b.reads = 0 ∧ b.writes = 0)) := by
  refine ⟨fun ops b h => runBorrow_ok ops (by simp [borrowNew]) h, ?_, ?_⟩
  · intro b
    unfold tryBorrow
    by_cases hw : b.writes = 0
    · rw [if_pos hw]; simp [hw]
    · rw [if_neg hw]; simp [hw]
  · intro b
    unfold tryBorrowMut
    by_cases hc : b.reads = 0 ∧ b.writes = 0
    · rw [if_pos hc]; simp [hc]
    · rw [if_neg hc]; simp [hc]

/-- C10: a `push_front(x)` followed by `pop_front()` returns `Some x`
and restores the element sequence; symmetrically for
`push_back`/`pop_back`. -/
theorem claim_C10_roundtrip {α : Type} {s : St α} {l : List α} (h : ListOk s l) (x : α) :
    (∃ s₁, popFront (pushFront s x) = some (some x, s₁) ∧ ListOk s₁ l) ∧
    (∃ s₂, popBack (pushBack s x) = some (some x, s₂) ∧ ListOk s₂ l) := by
  constructor
  · obtain ⟨s₁, heq, hok⟩ := popFront_ok (pushFront_ok h x)
    exact ⟨s₁, heq, hok⟩
  · obtain ⟨s₂, heq, hok⟩ := popBack_ok (pushBack_ok h x)
    refine ⟨s₂, ?_, ?_⟩
    · rw [heq, List.getLast?_concat]
    · rw [List.dropLast_concat] at hok
      exact hok

theorem claim_C10_witness :
    (∃ s₁, popFront (pushFront (pushFront (stNew : St Int) 1) 2) = some (some 2, s₁) ∧
        ListOk s₁ [1]) ∧
    (∃ s₂, popBack (pushBack (pushFront (stNew : St Int) 1) 2) = some (some 2, s₂) ∧
        ListOk s₂ [1]) :=
  claim_C10_roundtrip listOk_one 2

end Fourth
